import Mathlib

/-!
Shallow embedding of the CopyBloomFX account engine
(crypto/models.py, crypto/views.py, crypto/utils.py).

Monetary amounts (Django `DecimalField`) are modelled as exact rationals
(`ℚ`); timestamps are integer seconds (`Int`).  The database tables are
modelled as association lists / plain lists inside a single `St` record.
All definitions are translated from the source files; line references are
given in the doc comments.
-/

namespace CopyBloomFX

/-- `crypto/models.py` `Rank` (lines 11-17): one balance band of the rank
table.  `max_balance = none` means unbounded above. -/
structure Rank where
  name : String
  min_balance : ℚ
  max_balance : Option ℚ
  daily_profit_pct : ℚ
  copy_trades_limit : Int
  deriving DecidableEq, Repr

/-- `crypto/models.py` `Profile` (lines 49-61): per-account balances,
stored rank and referral counters. -/
structure Profile where
  rank : Option Rank
  locked_balance : ℚ
  withdrawable_balance : ℚ
  total_referrals : Int
  valid_referrals : Int
  referral_earnings : ℚ
  last_withdrawal_at : Option Int
  deriving DecidableEq, Repr

/-- `Profile.principal_balance` (models.py lines 63-66). -/
def Profile.principal_balance (p : Profile) : ℚ :=
  p.locked_balance + p.withdrawable_balance

/-- The scan loop of `Profile.get_rank` (models.py lines 78-83): return
the first band `r` with `pb ≥ r.min_balance` and (`r.max_balance` is
null or `pb ≤ r.max_balance`); keep scanning otherwise. -/
def findRank (pb : ℚ) : List Rank → Option Rank
  | [] => none
  | r :: rest =>
    if pb ≥ r.min_balance then
      match r.max_balance with
      | none => some r
      | some m => if pb ≤ m then some r else findRank pb rest
    else findRank pb rest

/-- `Profile.get_rank` (models.py lines 73-83): `none` when the
principal balance is `≤ 0`, otherwise scan the rank table in ascending
`min_balance` order with `findRank`. -/
def get_rank (ranks : List Rank) (p : Profile) : Option Rank :=
  if p.principal_balance ≤ 0 then none
  else
    findRank p.principal_balance
      (ranks.insertionSort (fun a b => a.min_balance ≤ b.min_balance))

/-- `Profile.update_rank` (models.py lines 85-91), as the state update it
performs: recompute `get_rank` and store it only when it differs. -/
def Profile.update_rank (ranks : List Rank) (p : Profile) : Profile :=
  let new_rank := get_rank ranks p
  if new_rank ≠ p.rank then { p with rank := new_rank } else p

/-- Deposit status (`crypto/models.py` line 98). -/
inductive DStatus where
  | pending | approved | rejected | expired
  deriving DecidableEq, Repr

/-- `crypto/models.py` `Deposit` (lines 97-107).  `approvedAt` is only
meaningful once the deposit leaves `pending`. -/
structure Deposit where
  id : Nat
  userId : Nat
  amount : ℚ
  status : DStatus
  expiresAt : Option Int
  approvedAt : Int
  referrerId : Option Nat
  deriving DecidableEq, Repr

/-- Copy-trade status (`crypto/models.py` line 129). -/
inductive TStatus where
  | pending | completed | cancelled
  deriving DecidableEq, Repr

/-- `crypto/models.py` `CopyTrade` (lines 127-136). -/
structure Trade where
  id : Nat
  userId : Nat
  profit : ℚ
  status : TStatus
  createdAt : Int
  deriving DecidableEq, Repr

/-- `crypto/models.py` `Referral` (lines 142-148). -/
structure ReferralRec where
  referrerId : Nat
  refereeId : Nat
  bonus_amount : ℚ
  depositId : Nat
  deriving DecidableEq, Repr

/-- `crypto/models.py` `PromoCode` (lines 161-170). -/
structure Promo where
  code : String
  bonus_min : ℚ
  bonus_max : ℚ
  expiration : Option Int
  usage_limit : Option Int
  usage_count : Int
  active : Bool
  deriving DecidableEq, Repr

/-- `crypto/models.py` `PromoRedemption` (lines 176-185). -/
structure RedemptionRec where
  userId : Nat
  code : String
  bonus_amount : ℚ
  deriving DecidableEq, Repr

/-- `crypto/models.py` `DailyReward` (lines 151-158). -/
structure RewardRec where
  userId : Nat
  amount : ℚ
  claimedAt : Int
  deriving DecidableEq, Repr

/-- `crypto/models.py` `Withdrawal` (lines 113-124), reduced to the fields
the core mutates. -/
structure WithdrawalRec where
  userId : Nat
  amount : ℚ
  deriving DecidableEq, Repr

/-- A rank-change notification (`Notification.objects.create` in
`process_expired_deposits`, views.py lines 261-264): it names the old and
the new rank. -/
structure RankNote where
  userId : Nat
  oldRank : Option Rank
  newRank : Option Rank
  deriving DecidableEq, Repr

/-- The durable state the core operations read and mutate: the `Profile`
rows keyed by user id, plus the `Deposit`, `CopyTrade`, `Referral`,
`PromoCode`, `PromoRedemption`, `DailyReward`, `Withdrawal` and
`Notification` tables. -/
structure St where
  profiles : List (Nat × Profile)
  deposits : List Deposit
  trades : List Trade
  referrals : List ReferralRec
  promos : List Promo
  redemptions : List RedemptionRec
  rewards : List RewardRec
  withdrawals : List WithdrawalRec
  notes : List RankNote
  deriving DecidableEq, Repr

/-- Row lookup in a keyed table. -/
def pLook (l : List (Nat × Profile)) (u : Nat) : Option Profile :=
  (l.find? (fun e => e.1 == u)).map (fun e => e.2)

/-- Fetch the `Profile` row of a user (`Profile.objects.get(user=...)`). -/
def lookupProfile (s : St) (u : Nat) : Option Profile :=
  pLook s.profiles u

/-- Save a `Profile` row back (`profile.save()`). -/
def saveProfile (l : List (Nat × Profile)) (u : Nat) (p : Profile) :
    List (Nat × Profile) :=
  l.map (fun e => if e.1 = u then (u, p) else e)

/-- `crypto/utils.py` line 131: fixed referral percentage `0.08`. -/
def REFERRAL_PCT : ℚ := 8 / 100

/-- `crypto/utils.py` line 132: deposits are locked for 30 days; we count
time in seconds, so this is the lock window in seconds. -/
def LOCK_SECONDS : Int := 30 * 86400

/-- `profile.update_rank()` applied to the stored row of user `u`
(`_update_user_rank`, views.py lines 495-502: a missing profile row is a
no-op). -/
def updateRankOf (ranks : List Rank) (u : Nat) (s : St) : St :=
  match lookupProfile s u with
  | none => s
  | some p => { s with profiles := saveProfile s.profiles u (p.update_rank ranks) }

/-- The `status='approved' AND expires_at <= now` selection of
`process_expired_deposits` (views.py lines 235-238). -/
def dueApproved (now : Int) (d : Deposit) : Bool :=
  d.status == .approved &&
    (match d.expiresAt with
     | some t => t ≤ now
     | none => false)

/-- One iteration of the loop in `process_expired_deposits`
(views.py lines 240-264): if the owner's locked balance covers the
deposit, debit it, mark the deposit `expired`, recompute the rank and
emit a demotion notification when the rank changed; otherwise leave
everything untouched.  (A missing `Profile` row would raise in Django;
it is modelled as leaving the deposit in place.) -/
def reapStep (ranks : List Rank) (s : St) (d : Deposit) : St :=
  match lookupProfile s d.userId with
  | none => s
  | some p =>
    if p.locked_balance ≥ d.amount then
      let p1 := { p with locked_balance := p.locked_balance - d.amount }
      let s1 := { s with
        profiles := saveProfile s.profiles d.userId p1,
        deposits := s.deposits.map
          (fun e => if e.id = d.id then { e with status := .expired } else e) }
      let old_rank := p1.rank
      let new_rank := get_rank ranks p1
      if old_rank ≠ new_rank then
        { s1 with
          profiles := saveProfile s1.profiles d.userId { p1 with rank := new_rank },
          notes := s1.notes ++ [⟨d.userId, old_rank, new_rank⟩] }
      else s1
    else s

/-- `process_expired_deposits` (views.py lines 228-264): select all
approved deposits whose expiry has passed, oldest first (FIFO by
`approved_at`), and run `reapStep` on each. -/
def process_expired_deposits (ranks : List Rank) (now : Int) (s : St) : St :=
  ((s.deposits.filter (dueApproved now)).insertionSort
      (fun a b => a.approvedAt ≤ b.approvedAt)).foldl (reapStep ranks) s

/-- One iteration of the loop in `complete_pending_trades`
(views.py lines 278-289): freeze the stored profit, mark the trade
`completed` and credit the profit to the owner's withdrawable balance. -/
def completeStep (s : St) (t : Trade) : St :=
  let trades1 := s.trades.map
    (fun e => if e.id = t.id then { e with status := .completed } else e)
  match lookupProfile s t.userId with
  | none => { s with trades := trades1 }
  | some p =>
    { s with
      trades := trades1,
      profiles := saveProfile s.profiles t.userId
        { p with withdrawable_balance := p.withdrawable_balance + t.profit } }

/-- `complete_pending_trades` (views.py lines 266-289): every pending
trade created at least 35 seconds ago is completed and its profit
credited.  No rank recomputation happens here. -/
def complete_pending_trades (now : Int) (s : St) : St :=
  (s.trades.filter
      (fun t => t.status == .pending && t.createdAt ≤ now - 35)).foldl completeStep s

/-- The rank-derived potential daily profit (views.py lines 314-321):
`locked_balance * daily_profit_pct / 100`, or the `0.50` floor when the
account has no rank, no locked balance or a zero percentage. -/
def potential_daily_profit (ranks : List Rank) (p : Profile) : ℚ :=
  match get_rank ranks p with
  | some rk =>
    if p.locked_balance > 0 ∧ rk.daily_profit_pct ≠ 0 then
      p.locked_balance * (rk.daily_profit_pct / 100)
    else 1 / 2
  | none => 1 / 2

/-- The per-trade target (views.py lines 323-333): the potential daily
profit divided by the rank's trade limit (`1` without a rank, `0.50`
floor for a non-positive limit). -/
def profit_per_trade (ranks : List Rank) (p : Profile) : ℚ :=
  let max_trades_allowed : Int :=
    match get_rank ranks p with
    | some rk => rk.copy_trades_limit
    | none => 1
  if max_trades_allowed > 0 then
    potential_daily_profit ranks p / (max_trades_allowed : ℚ)
  else 1 / 2

/-- The per-trade profit computation of `update_pending_trades_profit`
(views.py lines 302-356).  `sec` is the trade's age in seconds and
`r1, r2, r3` are the three `random.random()` draws of one iteration
(variance size, above/below-target choice, fluctuation). -/
def tickProfit (ranks : List Rank) (p : Profile) (sec : Int)
    (r1 r2 r3 : ℚ) : ℚ :=
  if sec < 10 then 0
  else
    let progress : ℚ := min ((sec : ℚ) / 30) 1
    let variance_amount := profit_per_trade ranks p * (5 / 100)
    let variance := (1 / 2 + r1) * variance_amount
    let target0 :=
      if r2 < 3 / 5 then profit_per_trade ranks p + variance
      else profit_per_trade ranks p - variance
    let target_profit := max target0 (1 / 100)
    let fluctuation := 95 / 100 + (15 / 100) * r3
    target_profit * progress * fluctuation

/-- `update_pending_trades_profit` (views.py lines 291-358): every
pending trade's profit is recomputed from its age and its owner's
current rank; `draws` supplies the three random draws per trade id.
Balances, ranks and non-pending trades are untouched. -/
def update_pending_trades_profit (ranks : List Rank) (now : Int)
    (draws : Nat → ℚ × ℚ × ℚ) (s : St) : St :=
  { s with trades := s.trades.map (fun t =>
      if t.status == .pending then
        match lookupProfile s t.userId with
        | none => t
        | some p =>
          { t with profit := (tickProfit ranks p (now - t.createdAt)
              (draws t.id).1 (draws t.id).2.1 (draws t.id).2.2) }
      else t) }

/-- `admin_deposit_approve_view`, crypto branch (views.py lines
1638-1698): a missing or non-pending deposit (or a missing owner
profile) changes nothing; otherwise the owner's locked balance is
credited, the deposit becomes `approved` with `approved_at = now` and
`expires_at` defaulted to `now + 30 days` when unset, the referral
cascade runs when a referrer distinct from the owner is attached (and
has a profile row), and finally the owner's rank is recomputed.  (The
gateway-mediated `LocalDeposit` branch of the view is outside the
modelled core.) -/
def admin_deposit_approve (ranks : List Rank) (now : Int) (pk : Nat)
    (s : St) : St :=
  match s.deposits.find? (fun d => d.id == pk) with
  | none => s
  | some d =>
    if d.status ≠ .pending then s
    else
      match lookupProfile s d.userId with
      | none => s
      | some p =>
        let p1 := { p with locked_balance := p.locked_balance + d.amount }
        let deposits1 := s.deposits.map (fun e =>
          if e.id = pk then
            { e with status := .approved, approvedAt := now,
                     expiresAt := some (e.expiresAt.getD (now + LOCK_SECONDS)) }
          else e)
        let s1 := { s with profiles := saveProfile s.profiles d.userId p1,
                           deposits := deposits1 }
        let s2 :=
          match d.referrerId with
          | none => s1
          | some r =>
            if r ≠ d.userId then
              match lookupProfile s1 r with
              | none => s1
              | some rp =>
                let bonus := d.amount * REFERRAL_PCT
                let rp1 := { rp with
                  locked_balance := rp.locked_balance + bonus,
                  total_referrals := rp.total_referrals + 1,
                  valid_referrals := rp.valid_referrals + 1,
                  referral_earnings := rp.referral_earnings + bonus }
                let s' := { s1 with
                  profiles := saveProfile s1.profiles r rp1,
                  referrals := s1.referrals ++ [⟨r, d.userId, bonus, pk⟩] }
                updateRankOf ranks r s'
            else s1
        updateRankOf ranks d.userId s2

/-- The error taxonomy of the promo-redemption path of `referral_view`
(views.py lines 1476-1487). -/
inductive PromoErr where
  | invalidCode | expired | exhaustedUsage | alreadyRedeemed
  deriving DecidableEq, Repr

/-- A fresh primary key for a newly created `Deposit` row. -/
def freshDepositId (s : St) : Nat :=
  (s.deposits.map (fun d => d.id)).foldr max 0 + 1

/-- The promo-redemption branch of `referral_view` (views.py lines
1473-1516).  `r` is the `random.random()` draw used for the bonus.  The
four validation failures return the error and leave the state untouched;
on success an approved `Deposit` of the bonus with a 30-day expiry is
created, the locked balance is credited, the `PromoRedemption` is
recorded, `usage_count` is incremented and the rank recomputed. -/
def redeemPromo (ranks : List Rank) (now : Int) (u : Nat) (code : String)
    (r : ℚ) (s : St) : Option PromoErr × St :=
  match lookupProfile s u with
  | none => (none, s)
  | some p =>
    match s.promos.find? (fun q => q.code == code && q.active) with
    | none => (some .invalidCode, s)
    | some promo =>
      if (match promo.expiration with
          | some t => t < now
          | none => false : Bool) then (some .expired, s)
      else if (match promo.usage_limit with
          | some lim => promo.usage_count ≥ lim
          | none => false : Bool) then (some .exhaustedUsage, s)
      else if s.redemptions.any
          (fun rc => rc.userId == u && rc.code == promo.code) then
        (some .alreadyRedeemed, s)
      else
        let bonus := promo.bonus_min + (promo.bonus_max - promo.bonus_min) * r
        let dep : Deposit :=
          { id := freshDepositId s, userId := u, amount := bonus,
            status := .approved, expiresAt := some (now + LOCK_SECONDS),
            approvedAt := now, referrerId := none }
        let p1 := { p with locked_balance := p.locked_balance + bonus }
        let s1 := { s with
          deposits := s.deposits ++ [dep],
          profiles := saveProfile s.profiles u p1,
          redemptions := s.redemptions ++ [⟨u, promo.code, bonus⟩],
          promos := s.promos.map (fun q =>
            if q.code = promo.code then { q with usage_count := q.usage_count + 1 }
            else q) }
        (none, updateRankOf ranks u s1)

/-- The crypto-withdrawal branch of `finance_view` (views.py lines
1064-1084): an amount above the withdrawable balance is refused with no
state change; otherwise the withdrawable balance is debited, a pending
`Withdrawal` row is created, `last_withdrawal_at` is stamped and the
rank recomputed. -/
def submit_withdrawal (ranks : List Rank) (now : Int) (u : Nat) (amt : ℚ)
    (s : St) : St :=
  match lookupProfile s u with
  | none => s
  | some p =>
    if amt > p.withdrawable_balance then s
    else
      let p1 := { p with withdrawable_balance := p.withdrawable_balance - amt,
                         last_withdrawal_at := some now }
      let s1 := { s with profiles := saveProfile s.profiles u p1,
                         withdrawals := s.withdrawals ++ [⟨u, amt⟩] }
      updateRankOf ranks u s1

/-- `crypto/utils.py` line 130. -/
def DAILY_REWARD : ℚ := 10 / 100

/-- `is_same_day` (utils.py lines 220-223) on integer-second timestamps:
same calendar day. -/
def sameDay (a b : Int) : Bool := a / 86400 == b / 86400

/-- `daily_reward_view` (views.py lines 722-735): refuse when a reward
was already claimed today (judged on the latest claim); otherwise credit
`DAILY_REWARD` to the withdrawable balance, record the claim and
recompute the rank. -/
def daily_reward (ranks : List Rank) (now : Int) (u : Nat) (s : St) : St :=
  match lookupProfile s u with
  | none => s
  | some p =>
    let mine := s.rewards.filter (fun w => w.userId == u)
    let latest : Option Int := mine.foldl
      (fun acc w =>
        match acc with
        | none => some w.claimedAt
        | some t => some (max t w.claimedAt)) none
    if (match latest with
        | some t => sameDay t now
        | none => false : Bool) then s
    else
      let p1 := { p with withdrawable_balance := p.withdrawable_balance + DAILY_REWARD }
      let s1 := { s with profiles := saveProfile s.profiles u p1,
                         rewards := s.rewards ++ [⟨u, DAILY_REWARD, now⟩] }
      updateRankOf ranks u s1

/-- One entry of the `wallet_assignments` cache dictionary
(`crypto/utils.py` lines 199-203): the value stored under an address. -/
structure WAssign where
  user_id : Nat
  network : String
  timestamp : Int
  deriving DecidableEq, Repr

/-- The `wallet_assignments` cache: a dictionary keyed by address. -/
abbrev WalletCache := List (String × WAssign)

/-- Result of `get_available_wallet`: an address, a wait time, or the
unhandled-exception paths of the source (`min` over an empty dict /
`random.choice` of an empty list). -/
inductive WalletRes where
  | addr (a : String)
  | wait (t : Int)
  | crash
  deriving DecidableEq, Repr

/-- The lazy sweep of `get_available_wallet` (utils.py lines 162-169):
keep only assignments younger than 300 seconds. -/
def cleanAssignments (now : Int) (cache : WalletCache) : WalletCache :=
  cache.filter (fun e => now - e.2.timestamp < 300)

/-- Dictionary lookup in the cache. -/
def cacheGet (cache : WalletCache) (w : String) : Option WAssign :=
  (cache.find? (fun e => e.1 == w)).map (fun e => e.2)

/-- Dictionary assignment `cache[w] = a`: replace the binding when the
key is present, append it otherwise. -/
def cacheSet (cache : WalletCache) (w : String) (a : WAssign) : WalletCache :=
  if (cache.find? (fun e => e.1 == w)).isSome then
    cache.map (fun e => if e.1 = w then (w, a) else e)
  else cache ++ [(w, a)]

/-- Availability check of `get_available_wallet` (utils.py lines
174-181): an address is available when it has no active assignment, or
its active assignment belongs to the (truthy) requesting user. -/
def walletAvailable (cleaned : WalletCache) (user_id : Nat) (w : String) : Bool :=
  match cacheGet cleaned w with
  | none => true
  | some a => user_id != 0 && a.user_id == user_id

/-- `min(cleaned_assignments.keys(), key=timestamp)` (utils.py lines
186-187): the entry with the smallest timestamp, first one on ties. -/
def oldestAssignment (cache : WalletCache) : Option (String × WAssign) :=
  match cache with
  | [] => none
  | e :: rest =>
    some (rest.foldl (fun best x =>
      if x.2.timestamp < best.2.timestamp then x else best) e)

/-- `get_available_wallet` (utils.py lines 147-208) for one network pool
`pool` (the fixed `WALLETS[network]` list).  `choice` resolves the
`random.choice` among the available addresses.  Returns the result
together with the cache that the call leaves behind. -/
def get_available_wallet (pool : List String) (network : String)
    (user_id : Nat) (now : Int) (choice : Nat) (cache : WalletCache) :
    WalletRes × WalletCache :=
  let cleaned := cleanAssignments now cache
  let available := pool.filter (walletAvailable cleaned user_id)
  if h : available = [] then
    match oldestAssignment cleaned with
    | none => (.crash, cleaned)
    | some e =>
      let time_remaining := 300 - (now - e.2.timestamp)
      if time_remaining > 0 then (.wait time_remaining, cleaned)
      else (.crash, cleaned)
  else
    have hlen : 0 < available.length := by
      cases hh : available with
      | nil => exact absurd hh h
      | cons a l => simp [hh]
    let selected := available.get ⟨choice % available.length, Nat.mod_lt _ hlen⟩
    (.addr selected, cacheSet cleaned selected ⟨user_id, network, now⟩)

/-- A deposit is blocked in a state when its owner's locked balance (if
the owner has a profile row at all) cannot cover its amount — the
condition under which the expiry reaper skips it. -/
def blockedDep (s : St) (d : Deposit) : Prop :=
  ∀ p ∈ lookupProfile s d.userId, p.locked_balance < d.amount

/-- The spec's balance/rank invariant, read through the row store: every
stored `Profile` row carries exactly the rank `get_rank` derives from its
current principal balance. -/
def RankOkAll (ranks : List Rank) (s : St) : Prop :=
  ∀ u ∈ s.profiles.map Prod.fst, ∀ p ∈ lookupProfile s u, p.rank = get_rank ranks p

instance (ranks : List Rank) (s : St) : Decidable (RankOkAll ranks s) :=
  decidable_of_iff
    (∀ u ∈ s.profiles.map Prod.fst, ∀ p ∈ lookupProfile s u, p.rank = get_rank ranks p)
    Iff.rfl

/-- A `Profile` row with the given balances and stored rank and zeroed
referral counters. -/
def mkProfile (locked withdrawable : ℚ) (rk : Option Rank) : Profile :=
  { rank := rk, locked_balance := locked, withdrawable_balance := withdrawable,
    total_referrals := 0, valid_referrals := 0, referral_earnings := 0,
    last_withdrawal_at := none }

/-- The lower band of the two-band scenario of spec §8:
`[0, 100) -> 5%, 2 trades`. -/
def bandA : Rank :=
  { name := "Amber", min_balance := 0, max_balance := some 100,
    daily_profit_pct := 5, copy_trades_limit := 2 }

/-- The upper band of the two-band scenario of spec §8:
`[100, ∞) -> 10%, 5 trades`. -/
def bandB : Rank :=
  { name := "Blue", min_balance := 100, max_balance := none,
    daily_profit_pct := 10, copy_trades_limit := 5 }

/-- The two-band rank table of spec §8. -/
def rs2 : List Rank := [bandA, bandB]

/-- The empty state. -/
def stEmpty : St :=
  { profiles := [], deposits := [], trades := [], referrals := [],
    promos := [], redemptions := [], rewards := [], withdrawals := [],
    notes := [] }

/-- An approved deposit of `30` by account 1 that expired at time 50. -/
def dep1 : Deposit :=
  { id := 1, userId := 1, amount := 30, status := .approved,
    expiresAt := some 50, approvedAt := 10, referrerId := none }

/-- An approved, expired deposit of `10` by account 1 — more than the
`5` that `stC3` keeps locked for that account. -/
def dep3 : Deposit :=
  { id := 1, userId := 1, amount := 10, status := .approved,
    expiresAt := some 0, approvedAt := 0, referrerId := none }

/-- An active promo code with bonus range `[5, 10]` and usage limit 3. -/
def promoB : Promo :=
  { code := "BOOM", bonus_min := 5, bonus_max := 10, expiration := none,
    usage_limit := some 3, usage_count := 0, active := true }

/-- A pending deposit of `25` by account 1, referred by account 2. -/
def dep2 : Deposit :=
  { id := 2, userId := 1, amount := 25, status := .pending,
    expiresAt := none, approvedAt := 0, referrerId := some 2 }

/-- Fixture: account 1 holds `locked = 40, withdrawable = 10` in the
lower band; account 2 is empty.  Deposit 1 (amount 30) is approved and
past expiry, deposit 2 (amount 25) is pending with account 2 as
referrer; one pending trade and one active promo code exist. -/
def stFix : St :=
  { stEmpty with
    profiles := [(1, mkProfile 40 10 (some bandA)), (2, mkProfile 0 0 none)],
    deposits := [dep1, dep2],
    trades := [{ id := 1, userId := 1, profit := 7 / 2, status := .pending,
                 createdAt := 0 }],
    promos := [promoB] }

/-- Counterexample state for the rank-staleness of trade completion:
account 1 has `withdrawable = 50` in the lower band and a pending trade
whose frozen profit `60` will push the principal into the upper band. -/
def stC1 : St :=
  { stEmpty with
    profiles := [(1, mkProfile 0 50 (some bandA))],
    trades := [{ id := 1, userId := 1, profit := 60, status := .pending,
                 createdAt := 0 }] }

/-- Counterexample state for the silent expiry skip: account 1 has
`locked = 5` but an approved, expired deposit of `10`. -/
def stC3 : St :=
  { stEmpty with
    profiles := [(1, mkProfile 5 0 (some bandA))],
    deposits := [dep3] }

/-- The spec §8 trade-scenario account: `lockedBalance = 200`, in the
upper band. -/
def p8 : Profile := mkProfile 200 0 (some bandB)

/-! ## Lemmas about row lookup and save -/

theorem pLook_cons_pos (e : Nat × Profile) (rest : List (Nat × Profile))
    (v : Nat) (h : e.1 = v) : pLook (e :: rest) v = some e.2 := by
  simp [pLook, List.find?_cons_of_pos, h]

theorem pLook_cons_neg (e : Nat × Profile) (rest : List (Nat × Profile))
    (v : Nat) (h : e.1 ≠ v) : pLook (e :: rest) v = pLook rest v := by
  simp [pLook, List.find?_cons_of_neg, h]

theorem saveProfile_cons (e : Nat × Profile) (rest : List (Nat × Profile))
    (u : Nat) (q : Profile) :
    saveProfile (e :: rest) u q =
      (if e.1 = u then (u, q) else e) :: saveProfile rest u q := rfl

theorem pLook_save_self (l : List (Nat × Profile)) (u : Nat) (q : Profile) :
    pLook (saveProfile l u q) u = (pLook l u).map (fun _ => q) := by
  induction l with
  | nil => rfl
  | cons e rest ih =>
    rw [saveProfile_cons]
    by_cases h : e.1 = u
    · rw [if_pos h, pLook_cons_pos _ _ _ rfl, pLook_cons_pos _ _ _ h]
      rfl
    · rw [if_neg h, pLook_cons_neg _ _ _ h, pLook_cons_neg _ _ _ h, ih]

theorem pLook_save_ne (l : List (Nat × Profile)) (u v : Nat) (q : Profile)
    (h : v ≠ u) : pLook (saveProfile l u q) v = pLook l v := by
  induction l with
  | nil => rfl
  | cons e rest ih =>
    rw [saveProfile_cons]
    by_cases he : e.1 = u
    · rw [if_pos he]
      rw [pLook_cons_neg _ _ _ (by simpa using Ne.symm h)]
      rw [pLook_cons_neg _ _ _ (by rw [he]; exact Ne.symm h), ih]
    · rw [if_neg he]
      by_cases hv : e.1 = v
      · rw [pLook_cons_pos _ _ _ hv, pLook_cons_pos _ _ _ hv]
      · rw [pLook_cons_neg _ _ _ hv, pLook_cons_neg _ _ _ hv, ih]

theorem keys_save (l : List (Nat × Profile)) (u : Nat) (q : Profile) :
    (saveProfile l u q).map Prod.fst = l.map Prod.fst := by
  induction l with
  | nil => rfl
  | cons e rest ih =>
    rw [saveProfile_cons, List.map_cons, List.map_cons, ih]
    by_cases h : e.1 = u
    · rw [if_pos h]
      simp [h]
    · rw [if_neg h]

/-! ## Lemmas about rank recomputation -/

theorem get_rank_set_rank (ranks : List Rank) (p : Profile) (x : Option Rank) :
    get_rank ranks { p with rank := x } = get_rank ranks p := rfl

theorem update_rank_rank_ok (ranks : List Rank) (p : Profile) :
    (p.update_rank ranks).rank = get_rank ranks (p.update_rank ranks) := by
  unfold Profile.update_rank
  by_cases h : get_rank ranks p ≠ p.rank
  · rw [if_pos h]
    rfl
  · rw [if_neg h]
    exact (not_ne_iff.mp h).symm

theorem update_rank_locked (ranks : List Rank) (p : Profile) :
    (p.update_rank ranks).locked_balance = p.locked_balance := by
  unfold Profile.update_rank
  by_cases h : get_rank ranks p ≠ p.rank
  · rw [if_pos h]
  · rw [if_neg h]

theorem update_rank_withdrawable (ranks : List Rank) (p : Profile) :
    (p.update_rank ranks).withdrawable_balance = p.withdrawable_balance := by
  unfold Profile.update_rank
  by_cases h : get_rank ranks p ≠ p.rank
  · rw [if_pos h]
  · rw [if_neg h]

theorem updateRankOf_keys (ranks : List Rank) (u : Nat) (s : St) :
    (updateRankOf ranks u s).profiles.map Prod.fst = s.profiles.map Prod.fst := by
  unfold updateRankOf
  cases h : lookupProfile s u with
  | none => rfl
  | some p => exact keys_save _ _ _

theorem updateRankOf_lookup_self (ranks : List Rank) (u : Nat) (s : St) :
    lookupProfile (updateRankOf ranks u s) u =
      (lookupProfile s u).map (fun p => p.update_rank ranks) := by
  unfold updateRankOf
  cases h : lookupProfile s u with
  | none => simp [h]
  | some p =>
    show pLook (saveProfile s.profiles u (p.update_rank ranks)) u = _
    rw [pLook_save_self]
    unfold lookupProfile at h
    rw [h]
    rfl

theorem updateRankOf_lookup_ne (ranks : List Rank) (u v : Nat) (s : St)
    (h : v ≠ u) :
    lookupProfile (updateRankOf ranks u s) v = lookupProfile s v := by
  unfold updateRankOf
  cases hl : lookupProfile s u with
  | none => rfl
  | some p => exact pLook_save_ne _ _ _ _ h

theorem updateRankOf_deposits (ranks : List Rank) (u : Nat) (s : St) :
    (updateRankOf ranks u s).deposits = s.deposits := by
  unfold updateRankOf
  cases lookupProfile s u <;> rfl

theorem updateRankOf_trades (ranks : List Rank) (u : Nat) (s : St) :
    (updateRankOf ranks u s).trades = s.trades := by
  unfold updateRankOf
  cases lookupProfile s u <;> rfl

theorem updateRankOf_referrals (ranks : List Rank) (u : Nat) (s : St) :
    (updateRankOf ranks u s).referrals = s.referrals := by
  unfold updateRankOf
  cases lookupProfile s u <;> rfl

theorem updateRankOf_promos (ranks : List Rank) (u : Nat) (s : St) :
    (updateRankOf ranks u s).promos = s.promos := by
  unfold updateRankOf
  cases lookupProfile s u <;> rfl

theorem updateRankOf_redemptions (ranks : List Rank) (u : Nat) (s : St) :
    (updateRankOf ranks u s).redemptions = s.redemptions := by
  unfold updateRankOf
  cases lookupProfile s u <;> rfl

theorem updateRankOf_notes (ranks : List Rank) (u : Nat) (s : St) :
    (updateRankOf ranks u s).notes = s.notes := by
  unfold updateRankOf
  cases lookupProfile s u <;> rfl

/-- After `updateRankOf u`, every row that satisfied the rank invariant
before still does, and the row of `u` satisfies it unconditionally. -/
theorem rankOkAll_after_updateRankOf (ranks : List Rank) (u : Nat) (s : St)
    (h : ∀ v ∈ s.profiles.map Prod.fst, v ≠ u →
      ∀ p ∈ lookupProfile s v, p.rank = get_rank ranks p) :
    RankOkAll ranks (updateRankOf ranks u s) := by
  intro v hv p hp
  rw [updateRankOf_keys] at hv
  by_cases hvu : v = u
  · subst hvu
    rw [updateRankOf_lookup_self] at hp
    cases hl : lookupProfile s v with
    | none => rw [hl] at hp; exact absurd hp (by simp)
    | some q =>
      rw [hl] at hp
      simp only [Option.map_some', Option.mem_def, Option.some_inj] at hp
      subst hp
      exact update_rank_rank_ok ranks q
  · rw [updateRankOf_lookup_ne _ _ _ _ hvu] at hp
    exact h v hv hvu p hp

/-! ## C2: the rank lookup -/

theorem findRank_some (pb : ℚ) (l : List Rank) (b : Rank)
    (h : findRank pb l = some b) :
    b.min_balance ≤ pb ∧ ∀ m ∈ b.max_balance, pb ≤ m := by
  induction l with
  | nil => exact absurd h (by simp [findRank])
  | cons r rest ih =>
    rw [findRank] at h
    by_cases hmin : pb ≥ r.min_balance
    · rw [if_pos hmin] at h
      cases hm : r.max_balance with
      | none =>
        rw [hm] at h
        cases h
        exact ⟨hmin, by simp [hm]⟩
      | some m =>
        rw [hm] at h
        dsimp only at h
        by_cases hle : pb ≤ m
        · rw [if_pos hle] at h
          cases h
          exact ⟨hmin, by simp [hm, hle]⟩
        · rw [if_neg hle] at h
          exact ih h
    · rw [if_neg hmin] at h
      exact ih h

theorem insertionSort_rs2 :
    rs2.insertionSort (fun a b => a.min_balance ≤ b.min_balance) = [bandA, bandB] := by
  norm_num [rs2, bandA, bandB, List.insertionSort, List.orderedInsert]

/-- C2 (amended): the rank lookup returns `none` for a non-positive
principal balance; any returned band contains the principal in its
CLOSED interval `[min_balance, max_balance]` (no upper bound when
`max_balance` is unset); and on the contiguous two-band table of spec §8
the lookup resolves to the lower band exactly when the principal is
`≤ 100` — in particular, at the shared boundary `100` of the two bands
the LOWER band is selected, not the higher one. -/
theorem C2_rank_lookup_characterization :
    (∀ (ranks : List Rank) (p : Profile),
      p.principal_balance ≤ 0 → get_rank ranks p = none) ∧
    (∀ (ranks : List Rank) (p : Profile) (b : Rank),
      get_rank ranks p = some b →
      0 < p.principal_balance ∧ b.min_balance ≤ p.principal_balance ∧
        ∀ m ∈ b.max_balance, p.principal_balance ≤ m) ∧
    (∀ p : Profile, get_rank rs2 p =
      if p.principal_balance ≤ 0 then none
      else if p.principal_balance ≤ 100 then some bandA
      else some bandB) := by
  refine ⟨fun ranks p h => by rw [get_rank, if_pos h], fun ranks p b h => ?_, fun p => ?_⟩
  · rw [get_rank] at h
    by_cases h0 : p.principal_balance ≤ 0
    · rw [if_pos h0] at h
      exact absurd h (by simp)
    · rw [if_neg h0] at h
      exact ⟨lt_of_not_le h0, findRank_some _ _ _ h⟩
  · rw [get_rank, insertionSort_rs2]
    by_cases h0 : p.principal_balance ≤ 0
    · rw [if_pos h0, if_pos h0]
    · rw [if_neg h0, if_neg h0]
      have hge : p.principal_balance ≥ bandA.min_balance := by
        rw [show bandA.min_balance = 0 from rfl]
        linarith [lt_of_not_le h0]
      by_cases h1 : p.principal_balance ≤ 100
      · rw [if_pos h1, findRank, if_pos hge]
        norm_num [bandA, h1]
      · rw [if_neg h1, findRank, if_pos hge]
        rw [show bandA.max_balance = some 100 from rfl]
        dsimp only
        rw [if_neg h1, findRank]
        have hge2 : p.principal_balance ≥ bandB.min_balance := by
          rw [show bandB.min_balance = (100 : ℚ) from rfl]
          linarith [lt_of_not_le h1]
        rw [if_pos hge2]
        rfl

/-- C2 counterexample: an account whose principal balance sits exactly on
the shared boundary `100` of the two contiguous spec §8 bands is ranked
in the LOWER band, not the higher one as the claim states. -/
theorem C2_counterexample_boundary_selects_lower_band :
    get_rank rs2 (mkProfile 100 0 none) = some bandA ∧
    get_rank rs2 (mkProfile 100 0 none) ≠ some bandB ∧
    bandA ≠ bandB := by
  have h : get_rank rs2 (mkProfile 100 0 none) = some bandA := by
    norm_num [get_rank, insertionSort_rs2, mkProfile, Profile.principal_balance,
      findRank, bandA]
  refine ⟨h, ?_, by norm_num [bandA, bandB]⟩
  rw [h]
  simp only [ne_eq, Option.some_inj]
  norm_num [bandA, bandB]

/-- Witness for C2: the characterization applied at a concrete empty
account and at a concrete account holding `50`. -/
theorem C2_rank_lookup_witness :
    get_rank rs2 (mkProfile 0 0 none) = none ∧
    (0 < (mkProfile 40 10 none).principal_balance ∧
      bandA.min_balance ≤ (mkProfile 40 10 none).principal_balance ∧
      ∀ m ∈ bandA.max_balance, (mkProfile 40 10 none).principal_balance ≤ m) :=
  ⟨C2_rank_lookup_characterization.1 rs2 (mkProfile 0 0 none)
      (by norm_num [mkProfile, Profile.principal_balance]),
   C2_rank_lookup_characterization.2.1 rs2 (mkProfile 40 10 none) bandA
      (by norm_num [get_rank, insertionSort_rs2, mkProfile,
        Profile.principal_balance, findRank, bandA])⟩

/-! ## C1: the balance/rank invariant across the mutating operations -/

/-- A state whose rows are either the old rows or rows that already
satisfy the rank invariant satisfies the invariant whenever the old
state did. -/
theorem rankOkAll_mk (ranks : List Rank) (s s' : St)
    (hkeys : s'.profiles.map Prod.fst = s.profiles.map Prod.fst)
    (hnew : ∀ v, lookupProfile s' v = lookupProfile s v ∨
      ∃ q, lookupProfile s' v = some q ∧ q.rank = get_rank ranks q)
    (h : RankOkAll ranks s) : RankOkAll ranks s' := by
  intro v hv q hq
  rcases hnew v with he | ⟨q', hq', hok⟩
  · rw [he] at hq
    exact h v (hkeys ▸ hv) q hq
  · rw [hq'] at hq
    simp only [Option.mem_def, Option.some_inj] at hq
    subst hq
    exact hok

theorem pLook_save2_self (l : List (Nat × Profile)) (u : Nat) (a b : Profile) :
    pLook (saveProfile (saveProfile l u a) u b) u = (pLook l u).map (fun _ => b) := by
  rw [pLook_save_self, pLook_save_self, Option.map_map]
  rfl

theorem pLook_save2_ne (l : List (Nat × Profile)) (u v : Nat) (a b : Profile)
    (h : v ≠ u) :
    pLook (saveProfile (saveProfile l u a) u b) v = pLook l v := by
  rw [pLook_save_ne _ _ _ _ h, pLook_save_ne _ _ _ _ h]

theorem rankOk_reapStep (ranks : List Rank) (s : St) (d : Deposit)
    (h : RankOkAll ranks s) : RankOkAll ranks (reapStep ranks s d) := by
  unfold reapStep
  cases hl : lookupProfile s d.userId with
  | none => exact h
  | some p =>
    dsimp only
    by_cases hge : p.locked_balance ≥ d.amount
    · rw [if_pos hge]
      by_cases hr : ({ p with locked_balance := p.locked_balance - d.amount } : Profile).rank ≠
          get_rank ranks { p with locked_balance := p.locked_balance - d.amount }
      · rw [if_pos hr]
        refine rankOkAll_mk ranks s _ ?_ ?_ h
        · show (saveProfile (saveProfile s.profiles d.userId _) d.userId _).map Prod.fst = _
          rw [keys_save, keys_save]
        · intro v
          by_cases hvu : v = d.userId
          · refine Or.inr ⟨{ p with locked_balance := p.locked_balance - d.amount, rank := get_rank ranks { p with locked_balance := p.locked_balance - d.amount } }, ?_, ?_⟩
            · show pLook (saveProfile (saveProfile s.profiles d.userId _) d.userId _) v = _
              rw [hvu, pLook_save2_self]
              unfold lookupProfile at hl
              rw [hl]
              rfl
            · rfl
          · refine Or.inl ?_
            show pLook (saveProfile (saveProfile s.profiles d.userId _) d.userId _) v = _
            rw [pLook_save2_ne _ _ _ _ _ hvu]
            rfl
      · rw [if_neg hr]
        refine rankOkAll_mk ranks s _ ?_ ?_ h
        · show (saveProfile s.profiles d.userId _).map Prod.fst = _
          rw [keys_save]
        · intro v
          by_cases hvu : v = d.userId
          · refine Or.inr ⟨{ p with locked_balance := p.locked_balance - d.amount }, ?_, ?_⟩
            · show pLook (saveProfile s.profiles d.userId _) v = _
              rw [hvu, pLook_save_self]
              unfold lookupProfile at hl
              rw [hl]
              rfl
            · exact not_ne_iff.mp hr
          · refine Or.inl ?_
            show pLook (saveProfile s.profiles d.userId _) v = _
            rw [pLook_save_ne _ _ _ _ hvu]
            rfl
    · rw [if_neg hge]
      exact h

theorem rankOk_reapFold (ranks : List Rank) (l : List Deposit) :
    ∀ s : St, RankOkAll ranks s →
      RankOkAll ranks (l.foldl (reapStep ranks) s) := by
  induction l with
  | nil => exact fun s h => h
  | cons d rest ih =>
    intro s h
    exact ih (reapStep ranks s d) (rankOk_reapStep ranks s d h)

/-- Saving one row and then recomputing that row's rank preserves the
invariant, whatever else changed outside the profile table. -/
theorem rankOkAll_single_credit (ranks : List Rank) (s : St) (u : Nat)
    (p1 : Profile) (s1 : St)
    (hprof : s1.profiles = saveProfile s.profiles u p1)
    (h : RankOkAll ranks s) :
    RankOkAll ranks (updateRankOf ranks u s1) := by
  refine rankOkAll_mk ranks s _ ?_ ?_ h
  · rw [updateRankOf_keys, hprof, keys_save]
  · intro v
    by_cases hvu : v = u
    · subst hvu
      rw [updateRankOf_lookup_self,
        show lookupProfile s1 v = pLook s1.profiles v from rfl,
        show lookupProfile s v = pLook s.profiles v from rfl,
        hprof, pLook_save_self]
      cases hb : pLook s.profiles v with
      | none => exact Or.inl rfl
      | some p0 =>
        exact Or.inr ⟨p1.update_rank ranks, rfl, update_rank_rank_ok ranks p1⟩
    · rw [updateRankOf_lookup_ne _ _ _ _ hvu]
      refine Or.inl ?_
      rw [show lookupProfile s1 v = pLook s1.profiles v from rfl,
        show lookupProfile s v = pLook s.profiles v from rfl,
        hprof, pLook_save_ne _ _ _ _ hvu]

theorem rankOk_submit_withdrawal (ranks : List Rank) (now : Int) (u : Nat)
    (amt : ℚ) (s : St) (h : RankOkAll ranks s) :
    RankOkAll ranks (submit_withdrawal ranks now u amt s) := by
  unfold submit_withdrawal
  cases hl : lookupProfile s u with
  | none => exact h
  | some p =>
    dsimp only
    by_cases hgt : amt > p.withdrawable_balance
    · rw [if_pos hgt]
      exact h
    · rw [if_neg hgt]
      exact rankOkAll_single_credit ranks s u _ _ rfl h

theorem rankOk_daily_reward (ranks : List Rank) (now : Int) (u : Nat)
    (s : St) (h : RankOkAll ranks s) :
    RankOkAll ranks (daily_reward ranks now u s) := by
  unfold daily_reward
  cases hl : lookupProfile s u with
  | none => exact h
  | some p =>
    dsimp only
    by_cases hc : (match (s.rewards.filter (fun w => w.userId == u)).foldl
        (fun acc w =>
          match acc with
          | none => some w.claimedAt
          | some t => some (max t w.claimedAt)) none with
        | some t => sameDay t now
        | none => false : Bool) = true
    · rw [if_pos hc]
      exact h
    · rw [if_neg hc]
      exact rankOkAll_single_credit ranks s u _ _ rfl h

theorem rankOk_redeemPromo (ranks : List Rank) (now : Int) (u : Nat)
    (code : String) (r : ℚ) (s : St) (h : RankOkAll ranks s) :
    RankOkAll ranks (redeemPromo ranks now u code r s).2 := by
  unfold redeemPromo
  cases hl : lookupProfile s u with
  | none => exact h
  | some p =>
    dsimp only
    cases hq : s.promos.find? (fun q => q.code == code && q.active) with
    | none => exact h
    | some promo =>
      dsimp only
      by_cases h1 : (match promo.expiration with
          | some t => t < now
          | none => false : Bool) = true
      · rw [if_pos h1]
        exact h
      · rw [if_neg h1]
        by_cases h2 : (match promo.usage_limit with
            | some lim => promo.usage_count ≥ lim
            | none => false : Bool) = true
        · rw [if_pos h2]
          exact h
        · rw [if_neg h2]
          by_cases h3 : (s.redemptions.any
              (fun rc => rc.userId == u && rc.code == promo.code)) = true
          · rw [if_pos h3]
            exact h
          · rw [if_neg h3]
            exact rankOkAll_single_credit ranks s u _ _ rfl h

theorem rankOk_tick (ranks : List Rank) (now : Int) (draws : Nat → ℚ × ℚ × ℚ)
    (s : St) (h : RankOkAll ranks s) :
    RankOkAll ranks (update_pending_trades_profit ranks now draws s) := h

/-- Saving two distinct rows and recomputing both their ranks preserves
the invariant. -/
theorem rankOkAll_double_credit (ranks : List Rank) (s : St) (u r : Nat)
    (p1 rp1 : Profile) (s' : St) (hur : r ≠ u)
    (h2 : s'.profiles = saveProfile (saveProfile s.profiles u p1) r rp1)
    (h : RankOkAll ranks s) :
    RankOkAll ranks (updateRankOf ranks u (updateRankOf ranks r s')) := by
  refine rankOkAll_mk ranks s _ ?_ ?_ h
  · rw [updateRankOf_keys, updateRankOf_keys, h2, keys_save, keys_save]
  · intro v
    by_cases hvu : v = u
    · subst hvu
      rw [updateRankOf_lookup_self, updateRankOf_lookup_ne _ _ _ _ (Ne.symm hur)]
      rw [show lookupProfile s' v = pLook s'.profiles v from rfl, h2,
        pLook_save_ne _ _ _ _ (Ne.symm hur), pLook_save_self]
      cases hb : pLook s.profiles v with
      | none =>
        refine Or.inl ?_
        rw [Option.map_none', Option.map_none']
        exact hb.symm
      | some p0 =>
        exact Or.inr ⟨p1.update_rank ranks, rfl, update_rank_rank_ok ranks p1⟩
    · by_cases hvr : v = r
      · subst hvr
        rw [updateRankOf_lookup_ne _ _ _ _ hvu, updateRankOf_lookup_self]
        rw [show lookupProfile s' v = pLook s'.profiles v from rfl, h2,
          pLook_save_self]
        cases hb : pLook (saveProfile s.profiles u p1) v with
        | none =>
          refine Or.inl ?_
          rw [Option.map_none', Option.map_none']
          rw [pLook_save_ne _ _ _ _ hvu] at hb
          exact hb.symm
        | some p0 =>
          exact Or.inr ⟨rp1.update_rank ranks, rfl, update_rank_rank_ok ranks rp1⟩
      · rw [updateRankOf_lookup_ne _ _ _ _ hvu, updateRankOf_lookup_ne _ _ _ _ hvr]
        refine Or.inl ?_
        show pLook s'.profiles v = pLook s.profiles v
        rw [h2, pLook_save_ne _ _ _ _ hvr, pLook_save_ne _ _ _ _ hvu]

theorem rankOk_admin_deposit_approve (ranks : List Rank) (now : Int) (pk : Nat)
    (s : St) (h : RankOkAll ranks s) :
    RankOkAll ranks (admin_deposit_approve ranks now pk s) := by
  unfold admin_deposit_approve
  cases hd : s.deposits.find? (fun d => d.id == pk) with
  | none => exact h
  | some d =>
    dsimp only
    by_cases hst : d.status ≠ .pending
    · rw [if_pos hst]
      exact h
    · rw [if_neg hst]
      cases hl : lookupProfile s d.userId with
      | none => exact h
      | some p =>
        dsimp only
        cases hrf : d.referrerId with
        | none =>
          dsimp only
          exact rankOkAll_single_credit ranks s d.userId _ _ rfl h
        | some r =>
          dsimp only
          by_cases hru : r ≠ d.userId
          · rw [if_pos hru]
            cases hrp : lookupProfile
                { s with
                  profiles := saveProfile s.profiles d.userId
                    { p with locked_balance := p.locked_balance + d.amount },
                  deposits := s.deposits.map (fun e =>
                    if e.id = pk then
                      { e with status := .approved, approvedAt := now,
                               expiresAt := some (e.expiresAt.getD (now + LOCK_SECONDS)) }
                    else e) } r with
            | none =>
              exact rankOkAll_single_credit ranks s d.userId _ _ rfl h
            | some rp =>
              dsimp only
              exact rankOkAll_double_credit ranks s d.userId r _ _ _ hru rfl h
          · rw [if_neg hru]
            exact rankOkAll_single_credit ranks s d.userId _ _ rfl h

theorem pLook_save_rank_proj (l : List (Nat × Profile)) (u v : Nat)
    (p q : Profile) (hq : q.rank = p.rank) (hl : pLook l u = some p) :
    (pLook (saveProfile l u q) v).map Profile.rank =
      (pLook l v).map Profile.rank := by
  by_cases hvu : v = u
  · subst hvu
    rw [pLook_save_self, hl]
    simp [hq]
  · rw [pLook_save_ne _ _ _ _ hvu]

theorem completeStep_rank_proj (s : St) (t : Trade) (v : Nat) :
    (lookupProfile (completeStep s t) v).map Profile.rank =
      (lookupProfile s v).map Profile.rank := by
  unfold completeStep
  cases hl : lookupProfile s t.userId with
  | none => rfl
  | some p =>
    dsimp only
    exact pLook_save_rank_proj s.profiles t.userId v p _ rfl hl

theorem completeFold_rank_proj (l : List Trade) :
    ∀ (s : St) (v : Nat),
      (lookupProfile (l.foldl completeStep s) v).map Profile.rank =
        (lookupProfile s v).map Profile.rank := by
  induction l with
  | nil => exact fun s v => rfl
  | cons t rest ih =>
    intro s v
    rw [List.foldl_cons, ih (completeStep s t) v, completeStep_rank_proj]

/-- C1 (amended): `principalBalance` is by definition
`lockedBalance + withdrawableBalance`; deposit approval, expiry reaping,
promo redemption, the trade-profit tick, withdrawal submission and the
daily reward all preserve the invariant that every stored rank equals
the rank derived from the current principal balance; trade COMPLETION,
however, credits the withdrawable balance without recomputing the rank
(it leaves every stored rank untouched), so the stored rank can be stale
until the next rank-recomputing operation. -/
theorem C1_balance_rank_invariant :
    (∀ p : Profile, p.principal_balance = p.locked_balance + p.withdrawable_balance) ∧
    (∀ (ranks : List Rank) (now : Int) (pk : Nat) (s : St), RankOkAll ranks s →
      RankOkAll ranks (admin_deposit_approve ranks now pk s)) ∧
    (∀ (ranks : List Rank) (now : Int) (s : St), RankOkAll ranks s →
      RankOkAll ranks (process_expired_deposits ranks now s)) ∧
    (∀ (ranks : List Rank) (now : Int) (u : Nat) (code : String) (r : ℚ) (s : St),
      RankOkAll ranks s → RankOkAll ranks (redeemPromo ranks now u code r s).2) ∧
    (∀ (ranks : List Rank) (now : Int) (draws : Nat → ℚ × ℚ × ℚ) (s : St),
      RankOkAll ranks s →
      RankOkAll ranks (update_pending_trades_profit ranks now draws s)) ∧
    (∀ (ranks : List Rank) (now : Int) (u : Nat) (amt : ℚ) (s : St),
      RankOkAll ranks s → RankOkAll ranks (submit_withdrawal ranks now u amt s)) ∧
    (∀ (ranks : List Rank) (now : Int) (u : Nat) (s : St),
      RankOkAll ranks s → RankOkAll ranks (daily_reward ranks now u s)) ∧
    (∀ (now : Int) (s : St) (v : Nat),
      (lookupProfile (complete_pending_trades now s) v).map Profile.rank =
        (lookupProfile s v).map Profile.rank) :=
  ⟨fun _ => rfl,
   rankOk_admin_deposit_approve,
   fun ranks now s h => rankOk_reapFold ranks _ s h,
   rankOk_redeemPromo,
   rankOk_tick,
   rankOk_submit_withdrawal,
   rankOk_daily_reward,
   fun now s v => completeFold_rank_proj _ s v⟩

/-- C1 counterexample: completing a pending trade credits the profit but
leaves the stored rank stale.  Account 1 satisfies the invariant before
(`principal = 50`, lower band), and violates it after the completion
pass pushes its principal to `110` while the stored rank stays in the
lower band. -/
theorem C1_counterexample_completion_skips_rank :
    RankOkAll rs2 stC1 ∧ ¬ RankOkAll rs2 (complete_pending_trades 100 stC1) := by
  constructor
  · norm_num [RankOkAll, stC1, stEmpty, mkProfile, lookupProfile, pLook,
      List.find?_cons_of_pos, List.find?_cons_of_neg, List.find?_nil,
      get_rank, insertionSort_rs2, Profile.principal_balance,
      findRank, bandA, bandB, Option.mem_def]
  · norm_num [RankOkAll, complete_pending_trades, completeStep, stC1, stEmpty,
      mkProfile, lookupProfile, pLook, saveProfile, List.filter,
      List.find?_cons_of_pos, List.find?_cons_of_neg, List.find?_nil,
      get_rank, insertionSort_rs2, Profile.principal_balance, findRank,
      bandA, bandB, Option.mem_def]

/-- Witness for C1: the expiry reaper applied to the concrete fixture
state preserves the invariant. -/
theorem C1_invariant_witness :
    RankOkAll rs2 (process_expired_deposits rs2 60 stFix) :=
  C1_balance_rank_invariant.2.2.1 rs2 60 stFix
    (by
      norm_num [RankOkAll, stFix, stEmpty, mkProfile, lookupProfile, pLook,
        List.find?_cons_of_pos, List.find?_cons_of_neg, List.find?_nil,
        get_rank, insertionSort_rs2, Profile.principal_balance,
        findRank, bandA, bandB, Option.mem_def])

/-! ## C3: the expiry reaper's per-deposit behaviour -/

theorem nonneg_after_save1 (l : List (Nat × Profile)) (u : Nat) (b : Profile)
    (hb : 0 ≤ b.locked_balance)
    (h : ∀ v q, pLook l v = some q → 0 ≤ q.locked_balance) :
    ∀ v q, pLook (saveProfile l u b) v = some q → 0 ≤ q.locked_balance := by
  intro v q hq
  by_cases hvu : v = u
  · subst hvu
    rw [pLook_save_self] at hq
    cases hx : pLook l v with
    | none => rw [hx] at hq; exact absurd hq (by simp)
    | some q0 =>
      rw [hx] at hq
      simp only [Option.map_some', Option.some_inj] at hq
      rw [← hq]
      exact hb
  · rw [pLook_save_ne _ _ _ _ hvu] at hq
    exact h v q hq

theorem nonneg_after_save2 (l : List (Nat × Profile)) (u : Nat) (a b : Profile)
    (hb : 0 ≤ b.locked_balance)
    (h : ∀ v q, pLook l v = some q → 0 ≤ q.locked_balance) :
    ∀ v q, pLook (saveProfile (saveProfile l u a) u b) v = some q →
      0 ≤ q.locked_balance := by
  intro v q hq
  by_cases hvu : v = u
  · subst hvu
    rw [pLook_save2_self] at hq
    cases hx : pLook l v with
    | none => rw [hx] at hq; exact absurd hq (by simp)
    | some q0 =>
      rw [hx] at hq
      simp only [Option.map_some', Option.some_inj] at hq
      rw [← hq]
      exact hb
  · rw [pLook_save2_ne _ _ _ _ _ hvu] at hq
    exact h v q hq

theorem reapStep_nonneg (ranks : List Rank) (s : St) (d : Deposit)
    (h : ∀ u q, lookupProfile s u = some q → 0 ≤ q.locked_balance) :
    ∀ u q, lookupProfile (reapStep ranks s d) u = some q →
      0 ≤ q.locked_balance := by
  unfold reapStep
  cases hl : lookupProfile s d.userId with
  | none => exact h
  | some p =>
    dsimp only
    by_cases hge : p.locked_balance ≥ d.amount
    · rw [if_pos hge]
      by_cases hr : ({ p with locked_balance := p.locked_balance - d.amount } : Profile).rank ≠
          get_rank ranks { p with locked_balance := p.locked_balance - d.amount }
      · rw [if_pos hr]
        exact fun u q hq => nonneg_after_save2 s.profiles d.userId _ _
          (sub_nonneg.mpr hge) (fun v q0 hq0 => h v q0 hq0) u q hq
      · rw [if_neg hr]
        exact fun u q hq => nonneg_after_save1 s.profiles d.userId _
          (sub_nonneg.mpr hge) (fun v q0 hq0 => h v q0 hq0) u q hq
    · rw [if_neg hge]
      exact h

theorem reapFold_nonneg (ranks : List Rank) (l : List Deposit) :
    ∀ s : St, (∀ u q, lookupProfile s u = some q → 0 ≤ q.locked_balance) →
      ∀ u q, lookupProfile (l.foldl (reapStep ranks) s) u = some q →
        0 ≤ q.locked_balance := by
  induction l with
  | nil => exact fun s h => h
  | cons d rest ih =>
    intro s h
    exact ih (reapStep ranks s d) (reapStep_nonneg ranks s d h)

/-- C3 (amended): an approved, due deposit whose owner's locked balance
covers its amount is debited by exactly the amount, marked `expired`,
and a demotion notification naming both ranks is emitted exactly when
the recomputed rank differs from the stored one; a deposit whose
owner's locked balance is short is left `approved` with the WHOLE state
unchanged — the anomaly is skipped silently, no report of any kind is
emitted — and consequently locked balances never become negative. -/
theorem C3_expiry_reaper_behaviour :
    (∀ (ranks : List Rank) (s : St) (d : Deposit) (p : Profile),
      lookupProfile s d.userId = some p → p.locked_balance < d.amount →
      reapStep ranks s d = s) ∧
    (∀ (ranks : List Rank) (s : St) (d : Deposit) (p : Profile),
      lookupProfile s d.userId = some p → d.amount ≤ p.locked_balance →
      (∃ q, lookupProfile (reapStep ranks s d) d.userId = some q ∧
        q.locked_balance = p.locked_balance - d.amount ∧
        q.withdrawable_balance = p.withdrawable_balance) ∧
      (reapStep ranks s d).deposits = s.deposits.map
        (fun e => if e.id = d.id then { e with status := .expired } else e) ∧
      (reapStep ranks s d).notes = s.notes ++
        (if p.rank ≠ get_rank ranks { p with locked_balance := p.locked_balance - d.amount }
         then [⟨d.userId, p.rank,
            get_rank ranks { p with locked_balance := p.locked_balance - d.amount }⟩]
         else [])) ∧
    (∀ (ranks : List Rank) (now : Int) (s : St),
      (∀ u q, lookupProfile s u = some q → 0 ≤ q.locked_balance) →
      ∀ u q, lookupProfile (process_expired_deposits ranks now s) u = some q →
        0 ≤ q.locked_balance) := by
  refine ⟨fun ranks s d p hl hlt => ?_, fun ranks s d p hl hge => ?_,
    fun ranks now s h => reapFold_nonneg ranks _ s h⟩
  · unfold reapStep
    rw [hl]
    dsimp only
    rw [if_neg (not_le.mpr hlt)]
  · unfold reapStep
    rw [hl]
    dsimp only
    rw [if_pos hge]
    by_cases hr : ({ p with locked_balance := p.locked_balance - d.amount } : Profile).rank ≠
        get_rank ranks { p with locked_balance := p.locked_balance - d.amount }
    · rw [if_pos hr]
      refine ⟨⟨{ p with locked_balance := p.locked_balance - d.amount, rank := get_rank ranks { p with locked_balance := p.locked_balance - d.amount } }, ?_, rfl, rfl⟩, rfl, ?_⟩
      · show pLook (saveProfile (saveProfile s.profiles d.userId _) d.userId _) d.userId = _
        rw [pLook_save2_self, show pLook s.profiles d.userId = some p from hl]
        rfl
      · rw [if_pos hr]
    · rw [if_neg hr]
      refine ⟨⟨{ p with locked_balance := p.locked_balance - d.amount }, ?_, rfl, rfl⟩, rfl, ?_⟩
      · show pLook (saveProfile s.profiles d.userId _) d.userId = _
        rw [pLook_save_self, show pLook s.profiles d.userId = some p from hl]
        rfl
      · rw [if_neg hr, List.append_nil]

/-- C3 counterexample: with `locked = 5` against an expired deposit of
`10`, the reaper leaves the entire state unchanged — the deposit stays
`approved` and NO report or notification of the anomaly is emitted
anywhere, contradicting the claim that the anomaly is reported. -/
theorem C3_counterexample_silent_skip :
    process_expired_deposits rs2 50 stC3 = stC3 ∧
    (process_expired_deposits rs2 50 stC3).notes = [] := by
  have h : process_expired_deposits rs2 50 stC3 = stC3 := by
    norm_num [process_expired_deposits, stC3, stEmpty, dep3, dueApproved,
      reapStep, lookupProfile, pLook, mkProfile, bandA, List.insertionSort,
      List.orderedInsert, List.filter, List.find?]
  exact ⟨h, by rw [h]; rfl⟩

/-- Witness for C3: the skip case applied to the concrete short-balance
state, and the expire case applied to the concrete fixture state. -/
theorem C3_reaper_witness :
    reapStep rs2 stC3 dep3 = stC3 ∧
    (reapStep rs2 stFix dep1).deposits = stFix.deposits.map
      (fun e => if e.id = dep1.id then { e with status := .expired } else e) :=
  ⟨C3_expiry_reaper_behaviour.1 rs2 stC3 dep3 (mkProfile 5 0 (some bandA))
      (by norm_num [lookupProfile, pLook, stC3, stEmpty, dep3, List.find?])
      (by norm_num [mkProfile, dep3]),
   (C3_expiry_reaper_behaviour.2.1 rs2 stFix dep1 (mkProfile 40 10 (some bandA))
      (by norm_num [lookupProfile, pLook, stFix, stEmpty, dep1, List.find?])
      (by norm_num [mkProfile, dep1])).2.1⟩

/-! ## C4: the referral cascade on deposit approval -/

theorem update_rank_total_referrals (ranks : List Rank) (p : Profile) :
    (p.update_rank ranks).total_referrals = p.total_referrals := by
  unfold Profile.update_rank
  by_cases h : get_rank ranks p ≠ p.rank
  · rw [if_pos h]
  · rw [if_neg h]

theorem update_rank_valid_referrals (ranks : List Rank) (p : Profile) :
    (p.update_rank ranks).valid_referrals = p.valid_referrals := by
  unfold Profile.update_rank
  by_cases h : get_rank ranks p ≠ p.rank
  · rw [if_pos h]
  · rw [if_neg h]

theorem update_rank_referral_earnings (ranks : List Rank) (p : Profile) :
    (p.update_rank ranks).referral_earnings = p.referral_earnings := by
  unfold Profile.update_rank
  by_cases h : get_rank ranks p ≠ p.rank
  · rw [if_pos h]
  · rw [if_neg h]

theorem lookup_after_double_credit (ranks : List Rank) (s s2 : St)
    (u r : Nat) (p1 rp1 rp : Profile) (hur : r ≠ u)
    (hprof : s2.profiles = saveProfile (saveProfile s.profiles u p1) r rp1)
    (hrp : pLook s.profiles r = some rp) :
    lookupProfile (updateRankOf ranks u (updateRankOf ranks r s2)) r =
      some (rp1.update_rank ranks) := by
  rw [updateRankOf_lookup_ne _ _ _ _ hur, updateRankOf_lookup_self,
    show lookupProfile s2 r = pLook s2.profiles r from rfl, hprof,
    pLook_save_self, pLook_save_ne _ _ _ _ hur, hrp]
  rfl

/-- C4: approving a pending deposit with a referrer distinct from the
owner (whose profile row exists) credits the referrer's locked balance
by exactly `amount × 0.08`, bumps both referral counters and the
referral earnings by the bonus, appends exactly one `Referral` record,
and recomputes the referrer's rank.  Without a referrer, or with the
owner as referrer, no other account is touched and no `Referral` record
is created. -/
theorem C4_referral_cascade :
    (∀ (ranks : List Rank) (now : Int) (pk : Nat) (s : St) (d : Deposit)
      (p : Profile) (r : Nat) (rp : Profile),
      s.deposits.find? (fun x => x.id == pk) = some d →
      d.status = .pending →
      lookupProfile s d.userId = some p →
      d.referrerId = some r →
      r ≠ d.userId →
      lookupProfile s r = some rp →
      (∃ q, lookupProfile (admin_deposit_approve ranks now pk s) r = some q ∧
        q.locked_balance = rp.locked_balance + d.amount * REFERRAL_PCT ∧
        q.total_referrals = rp.total_referrals + 1 ∧
        q.valid_referrals = rp.valid_referrals + 1 ∧
        q.referral_earnings = rp.referral_earnings + d.amount * REFERRAL_PCT ∧
        q.rank = get_rank ranks q) ∧
      (admin_deposit_approve ranks now pk s).referrals =
        s.referrals ++ [⟨r, d.userId, d.amount * REFERRAL_PCT, pk⟩]) ∧
    (∀ (ranks : List Rank) (now : Int) (pk : Nat) (s : St) (d : Deposit)
      (p : Profile),
      s.deposits.find? (fun x => x.id == pk) = some d →
      d.status = .pending →
      lookupProfile s d.userId = some p →
      (d.referrerId = none ∨ d.referrerId = some d.userId) →
      (admin_deposit_approve ranks now pk s).referrals = s.referrals ∧
      ∀ v, v ≠ d.userId →
        lookupProfile (admin_deposit_approve ranks now pk s) v =
          lookupProfile s v) := by
  constructor
  · intro ranks now pk s d p r rp hd hst hp hr hru hrp
    unfold admin_deposit_approve
    rw [hd]
    dsimp only
    rw [if_neg (not_ne_iff.mpr hst), hp]
    dsimp only
    rw [hr]
    dsimp only
    rw [if_pos hru]
    simp only [lookupProfile]
    rw [pLook_save_ne _ _ _ _ hru, show pLook s.profiles r = some rp from hrp]
    dsimp only
    constructor
    · refine ⟨_, lookup_after_double_credit ranks s _ d.userId r _ _ rp hru rfl
        (show pLook s.profiles r = some rp from hrp), ?_, ?_, ?_, ?_, ?_⟩
      · rw [update_rank_locked]
      · rw [update_rank_total_referrals]
      · rw [update_rank_valid_referrals]
      · rw [update_rank_referral_earnings]
      · exact update_rank_rank_ok ranks _
    · rw [updateRankOf_referrals, updateRankOf_referrals]
  · intro ranks now pk s d p hd hst hp hneg
    unfold admin_deposit_approve
    rw [hd]
    dsimp only
    rw [if_neg (not_ne_iff.mpr hst), hp]
    dsimp only
    cases hneg with
    | inl hnone =>
      rw [hnone]
      dsimp only
      refine ⟨by rw [updateRankOf_referrals], fun v hv => ?_⟩
      rw [updateRankOf_lookup_ne _ _ _ _ hv]
      exact pLook_save_ne _ _ _ _ hv
    | inr hself =>
      rw [hself]
      dsimp only
      rw [if_neg (by simp)]
      refine ⟨by rw [updateRankOf_referrals], fun v hv => ?_⟩
      rw [updateRankOf_lookup_ne _ _ _ _ hv]
      exact pLook_save_ne _ _ _ _ hv

/-- Witness for C4: approving the concrete referred deposit of `stFix`
creates exactly one `Referral` record with bonus `25 × 0.08`. -/
theorem C4_referral_witness :
    (admin_deposit_approve rs2 0 2 stFix).referrals =
      stFix.referrals ++ [⟨2, dep2.userId, dep2.amount * REFERRAL_PCT, 2⟩] :=
  (C4_referral_cascade.1 rs2 0 2 stFix dep2 (mkProfile 40 10 (some bandA)) 2
    (mkProfile 0 0 none)
    (by norm_num [stFix, stEmpty, dep1, dep2, List.find?_cons_of_pos,
      List.find?_cons_of_neg, List.find?_nil])
    rfl
    (by norm_num [lookupProfile, pLook, stFix, stEmpty, dep2, mkProfile,
      List.find?_cons_of_pos, List.find?_cons_of_neg, List.find?_nil])
    rfl
    (by norm_num [dep2])
    (by norm_num [lookupProfile, pLook, stFix, stEmpty, dep2, mkProfile,
      List.find?_cons_of_pos, List.find?_cons_of_neg, List.find?_nil])).2

/-! ## C5 and C6: promo redemption -/

theorem lookup_after_single_credit (ranks : List Rank) (s s1 : St)
    (u : Nat) (p p1 : Profile)
    (hprof : s1.profiles = saveProfile s.profiles u p1)
    (hp : pLook s.profiles u = some p) :
    lookupProfile (updateRankOf ranks u s1) u = some (p1.update_rank ranks) := by
  rw [updateRankOf_lookup_self,
    show lookupProfile s1 u = pLook s1.profiles u from rfl, hprof,
    pLook_save_self, hp]
  rfl

theorem find?_map_pred {α : Type} (f : α → α) (pred : α → Bool) (l : List α)
    (hf : ∀ x, pred (f x) = pred x) :
    (l.map f).find? pred = (l.find? pred).map f := by
  induction l with
  | nil => rfl
  | cons x rest ih =>
    rw [List.map_cons]
    by_cases hx : pred x = true
    · rw [List.find?_cons_of_pos _ (by rw [hf]; exact hx),
        List.find?_cons_of_pos _ hx]
      rfl
    · rw [List.find?_cons_of_neg _ (by rw [hf]; exact hx),
        List.find?_cons_of_neg _ hx, ih]

/-- C5: the promo-redemption validation ladder.  In order: no active
promo with the code gives `InvalidCode`; a past expiration gives
`Expired`; `usage_count ≥ usage_limit` gives `ExhaustedUsage`; an
existing redemption by the same account gives `AlreadyRedeemed`.  Every
failure returns the state unchanged, and a second redemption of the
same code by the same account always fails with the state unchanged. -/
theorem C5_promo_redemption_errors :
    (∀ (ranks : List Rank) (now : Int) (u : Nat) (code : String) (r : ℚ)
      (s : St) (p : Profile), lookupProfile s u = some p →
      s.promos.find? (fun q => q.code == code && q.active) = none →
      redeemPromo ranks now u code r s = (some .invalidCode, s)) ∧
    (∀ (ranks : List Rank) (now : Int) (u : Nat) (code : String) (r : ℚ)
      (s : St) (p : Profile) (promo : Promo), lookupProfile s u = some p →
      s.promos.find? (fun q => q.code == code && q.active) = some promo →
      (∃ t ∈ promo.expiration, t < now) →
      redeemPromo ranks now u code r s = (some .expired, s)) ∧
    (∀ (ranks : List Rank) (now : Int) (u : Nat) (code : String) (r : ℚ)
      (s : St) (p : Profile) (promo : Promo), lookupProfile s u = some p →
      s.promos.find? (fun q => q.code == code && q.active) = some promo →
      (∀ t ∈ promo.expiration, ¬ t < now) →
      (∃ lim ∈ promo.usage_limit, lim ≤ promo.usage_count) →
      redeemPromo ranks now u code r s = (some .exhaustedUsage, s)) ∧
    (∀ (ranks : List Rank) (now : Int) (u : Nat) (code : String) (r : ℚ)
      (s : St) (p : Profile) (promo : Promo), lookupProfile s u = some p →
      s.promos.find? (fun q => q.code == code && q.active) = some promo →
      (∀ t ∈ promo.expiration, ¬ t < now) →
      (∀ lim ∈ promo.usage_limit, ¬ lim ≤ promo.usage_count) →
      (s.redemptions.any (fun rc => rc.userId == u && rc.code == promo.code)) = true →
      redeemPromo ranks now u code r s = (some .alreadyRedeemed, s)) ∧
    (∀ (ranks : List Rank) (now : Int) (u : Nat) (code : String) (r r2 : ℚ)
      (s s' : St) (p : Profile), lookupProfile s u = some p →
      redeemPromo ranks now u code r s = (none, s') →
      (redeemPromo ranks now u code r2 s').1.isSome = true ∧
      (redeemPromo ranks now u code r2 s').2 = s') := by
  refine ⟨?_, ?_, ?_, ?_, ?_⟩
  · intro ranks now u code r s p hp hfind
    unfold redeemPromo
    rw [hp]
    dsimp only
    rw [hfind]
  · intro ranks now u code r s p promo hp hfind hexp
    unfold redeemPromo
    rw [hp]
    dsimp only
    rw [hfind]
    dsimp only
    obtain ⟨t, ht, hlt⟩ := hexp
    rw [Option.mem_def] at ht
    rw [ht]
    dsimp only
    rw [if_pos (decide_eq_true hlt)]
  · intro ranks now u code r s p promo hp hfind hexp hlim
    unfold redeemPromo
    rw [hp]
    dsimp only
    rw [hfind]
    dsimp only
    obtain ⟨lim, hl, hle⟩ := hlim
    rw [Option.mem_def] at hl
    have hexp' : (match promo.expiration with
        | some t => decide (t < now)
        | none => false) = false := by
      cases he : promo.expiration with
      | none => rfl
      | some t =>
        have := hexp t (by rw [Option.mem_def, he])
        simp [this]
    rw [hexp']
    rw [if_neg (by simp), hl]
    dsimp only
    rw [if_pos (decide_eq_true hle)]
  · intro ranks now u code r s p promo hp hfind hexp hlim hany
    unfold redeemPromo
    rw [hp]
    dsimp only
    rw [hfind]
    dsimp only
    have hexp' : (match promo.expiration with
        | some t => decide (t < now)
        | none => false) = false := by
      cases he : promo.expiration with
      | none => rfl
      | some t =>
        have := hexp t (by rw [Option.mem_def, he])
        simp [this]
    have hlim' : (match promo.usage_limit with
        | some lim => decide (promo.usage_count ≥ lim)
        | none => false) = false := by
      cases hl : promo.usage_limit with
      | none => rfl
      | some lim =>
        have := hlim lim (by rw [Option.mem_def, hl])
        simp [this]
    rw [hexp', if_neg (by simp), hlim', if_neg (by simp), if_pos hany]
  · intro ranks now u code r r2 s s' p hp hsucc
    unfold redeemPromo at hsucc
    rw [hp] at hsucc
    dsimp only at hsucc
    cases hfind : s.promos.find? (fun q => q.code == code && q.active) with
    | none =>
      rw [hfind] at hsucc
      exact absurd (congrArg Prod.fst hsucc) (by simp)
    | some promo =>
      rw [hfind] at hsucc
      dsimp only at hsucc
      by_cases h1 : (match promo.expiration with
          | some t => decide (t < now)
          | none => false) = true
      · rw [if_pos h1] at hsucc
        exact absurd (congrArg Prod.fst hsucc) (by simp)
      · rw [if_neg h1] at hsucc
        by_cases h2 : (match promo.usage_limit with
            | some lim => decide (promo.usage_count ≥ lim)
            | none => false) = true
        · rw [if_pos h2] at hsucc
          exact absurd (congrArg Prod.fst hsucc) (by simp)
        · rw [if_neg h2] at hsucc
          by_cases h3 : (s.redemptions.any
              (fun rc => rc.userId == u && rc.code == promo.code)) = true
          · rw [if_pos h3] at hsucc
            exact absurd (congrArg Prod.fst hsucc) (by simp)
          · rw [if_neg h3] at hsucc
            have hs' := congrArg Prod.snd hsucc
            dsimp only at hs'
            rw [← hs']
            unfold redeemPromo
            rw [lookup_after_single_credit ranks s _ u p _ rfl
              (show pLook s.profiles u = some p from hp)]
            dsimp only
            rw [updateRankOf_promos]
            dsimp only
            rw [find?_map_pred _ _ _ (fun x => by
              by_cases hx : x.code = promo.code <;> simp [hx]), hfind]
            rw [Option.map_some']
            dsimp only
            rw [if_pos (Eq.refl promo.code)]
            dsimp only
            rw [if_neg h1]
            by_cases h2' : (match promo.usage_limit with
                | some lim => decide (promo.usage_count + 1 ≥ lim)
                | none => false) = true
            · rw [if_pos h2']
              exact ⟨rfl, rfl⟩
            · rw [if_neg h2', updateRankOf_redemptions]
              dsimp only
              rw [if_pos (by simp [List.any_append])]
              exact ⟨rfl, rfl⟩

/-- C6: on a successful promo redemption the drawn bonus lies in
`[bonus_min, bonus_max]`, an approved `Deposit` of exactly the bonus
with a 30-day expiry is appended (so the expiry reaper later treats it
like any other deposit), the account's locked balance grows by exactly
the bonus, exactly one `PromoRedemption` is recorded, `usage_count`
rises by one, and the account's rank is recomputed. -/
theorem C6_promo_redemption_success :
    ∀ (ranks : List Rank) (now : Int) (u : Nat) (code : String) (r : ℚ)
      (s : St) (p : Profile) (promo : Promo),
      lookupProfile s u = some p →
      s.promos.find? (fun q => q.code == code && q.active) = some promo →
      (∀ t ∈ promo.expiration, ¬ t < now) →
      (∀ lim ∈ promo.usage_limit, ¬ lim ≤ promo.usage_count) →
      (s.redemptions.any (fun rc => rc.userId == u && rc.code == promo.code)) = false →
      0 ≤ r → r < 1 → promo.bonus_min ≤ promo.bonus_max →
      (redeemPromo ranks now u code r s).1 = none ∧
      (promo.bonus_min ≤ promo.bonus_min + (promo.bonus_max - promo.bonus_min) * r ∧
        promo.bonus_min + (promo.bonus_max - promo.bonus_min) * r ≤ promo.bonus_max) ∧
      (redeemPromo ranks now u code r s).2.deposits = s.deposits ++
        [⟨freshDepositId s, u,
          promo.bonus_min + (promo.bonus_max - promo.bonus_min) * r,
          .approved, some (now + LOCK_SECONDS), now, none⟩] ∧
      (∃ q, lookupProfile (redeemPromo ranks now u code r s).2 u = some q ∧
        q.locked_balance = p.locked_balance +
          (promo.bonus_min + (promo.bonus_max - promo.bonus_min) * r) ∧
        q.rank = get_rank ranks q) ∧
      (redeemPromo ranks now u code r s).2.redemptions = s.redemptions ++
        [⟨u, promo.code, promo.bonus_min + (promo.bonus_max - promo.bonus_min) * r⟩] ∧
      (redeemPromo ranks now u code r s).2.promos = s.promos.map
        (fun q => if q.code = promo.code then
          { q with usage_count := q.usage_count + 1 } else q) := by
  intro ranks now u code r s p promo hp hfind hexp hlim hany hr0 hr1 hmm
  have hexp' : (match promo.expiration with
      | some t => decide (t < now)
      | none => false) = false := by
    cases he : promo.expiration with
    | none => rfl
    | some t =>
      have := hexp t (by rw [Option.mem_def, he])
      simp [this]
  have hlim' : (match promo.usage_limit with
      | some lim => decide (promo.usage_count ≥ lim)
      | none => false) = false := by
    cases hl : promo.usage_limit with
    | none => rfl
    | some lim =>
      have := hlim lim (by rw [Option.mem_def, hl])
      simp [this]
  have hmul : 0 ≤ (promo.bonus_max - promo.bonus_min) * r :=
    mul_nonneg (sub_nonneg.mpr hmm) hr0
  have hmul2 : (promo.bonus_max - promo.bonus_min) * r ≤
      promo.bonus_max - promo.bonus_min :=
    mul_le_of_le_one_right (sub_nonneg.mpr hmm) (le_of_lt hr1)
  unfold redeemPromo
  rw [hp]
  dsimp only
  rw [hfind]
  dsimp only
  rw [hexp', if_neg (by simp), hlim', if_neg (by simp),
    if_neg (by rw [hany]; simp)]
  refine ⟨rfl, ⟨by linarith, by linarith⟩, ?_, ?_, ?_, ?_⟩
  · rw [updateRankOf_deposits]
  · exact ⟨_, lookup_after_single_credit ranks s _ u p _ rfl
      (show pLook s.profiles u = some p from hp),
      by rw [update_rank_locked], update_rank_rank_ok ranks _⟩
  · rw [updateRankOf_redemptions]
  · rw [updateRankOf_promos]

/-- Witness for C5: redeeming an unknown code fails with `InvalidCode`
and leaves the state unchanged, and redeeming a code the account has
already redeemed fails with `AlreadyRedeemed` and leaves the state
unchanged. -/
theorem C5_promo_witness :
    redeemPromo rs2 0 1 "NOPE" (1 / 2) stFix = (some .invalidCode, stFix) ∧
    redeemPromo rs2 0 1 "BOOM" (1 / 2)
        { stFix with redemptions := [⟨1, "BOOM", 2⟩] } =
      (some .alreadyRedeemed, { stFix with redemptions := [⟨1, "BOOM", 2⟩] }) :=
  ⟨C5_promo_redemption_errors.1 rs2 0 1 "NOPE" (1 / 2) stFix
      (mkProfile 40 10 (some bandA))
      (by norm_num [lookupProfile, pLook, stFix, stEmpty, mkProfile,
        List.find?_cons_of_pos, List.find?_cons_of_neg, List.find?_nil])
      (by
        rw [show stFix.promos = [promoB] from rfl,
          List.find?_cons_of_neg _ (by simp [promoB]), List.find?_nil]),
   C5_promo_redemption_errors.2.2.2.1 rs2 0 1 "BOOM" (1 / 2)
      { stFix with redemptions := [⟨1, "BOOM", 2⟩] }
      (mkProfile 40 10 (some bandA)) promoB
      (by norm_num [lookupProfile, pLook, stFix, stEmpty, mkProfile,
        List.find?_cons_of_pos, List.find?_cons_of_neg, List.find?_nil])
      (by norm_num [stFix, stEmpty, promoB,
        List.find?_cons_of_pos, List.find?_nil])
      (fun t ht => absurd (show t ∈ (none : Option Int) from ht) (Option.not_mem_none t))
      (by norm_num [promoB])
      (by norm_num [promoB, List.any_cons, List.any_nil])⟩

/-- Witness for C6: redeeming `BOOM` with draw `1/2` succeeds on the
fixture state and records exactly one redemption of bonus `7.5`. -/
theorem C6_promo_witness :
    (redeemPromo rs2 0 1 "BOOM" (1 / 2) stFix).1 = none ∧
    (redeemPromo rs2 0 1 "BOOM" (1 / 2) stFix).2.redemptions =
      stFix.redemptions ++
        [⟨1, promoB.code, promoB.bonus_min +
          (promoB.bonus_max - promoB.bonus_min) * (1 / 2)⟩] := by
  have h := C6_promo_redemption_success rs2 0 1 "BOOM" (1 / 2) stFix
    (mkProfile 40 10 (some bandA)) promoB
    (by norm_num [lookupProfile, pLook, stFix, stEmpty, mkProfile,
      List.find?_cons_of_pos, List.find?_cons_of_neg, List.find?_nil])
    (by norm_num [stFix, stEmpty, promoB,
      List.find?_cons_of_pos, List.find?_nil])
    (fun t ht => absurd (show t ∈ (none : Option Int) from ht) (Option.not_mem_none t))
    (by norm_num [promoB])
    (by norm_num [stFix, stEmpty])
    (by norm_num)
    (by norm_num)
    (by norm_num [promoB])
  exact ⟨h.1, h.2.2.2.2.1⟩

/-! ## C7: trade profit non-negativity and exactly-once completion -/

theorem tickProfit_nonneg (ranks : List Rank) (p : Profile) (sec : Int)
    (r1 r2 r3 : ℚ) (hr3 : 0 ≤ r3) :
    0 ≤ tickProfit ranks p sec r1 r2 r3 := by
  unfold tickProfit
  by_cases hsec : sec < 10
  · rw [if_pos hsec]
  · rw [if_neg hsec]
    dsimp only
    have h10 : (10 : Int) ≤ sec := not_lt.mp hsec
    have hprog : (0 : ℚ) ≤ min ((sec : ℚ) / 30) 1 := by
      refine le_min ?_ (by norm_num)
      have : (0 : ℚ) ≤ (sec : ℚ) := by
        exact_mod_cast le_trans (by norm_num) h10
      positivity
    have htp : (0 : ℚ) ≤ max (if r2 < 3 / 5 then
        profit_per_trade ranks p + (1 / 2 + r1) * (profit_per_trade ranks p * (5 / 100))
        else profit_per_trade ranks p - (1 / 2 + r1) * (profit_per_trade ranks p * (5 / 100)))
        (1 / 100) :=
      le_trans (by norm_num) (le_max_right _ _)
    have hfl : (0 : ℚ) ≤ 95 / 100 + 15 / 100 * r3 := by linarith
    exact mul_nonneg (mul_nonneg htp hprog) hfl

theorem completeStep_trades (s : St) (t : Trade) :
    (completeStep s t).trades = s.trades.map
      (fun e => if e.id = t.id then { e with status := TStatus.completed } else e) := by
  unfold completeStep
  cases lookupProfile s t.userId <;> rfl

theorem pending_mem_of_completeStep (s : St) (t : Trade) (t' : Trade)
    (h : t' ∈ (completeStep s t).trades) (hp : t'.status = .pending) :
    t' ∈ s.trades := by
  have hmem : t' ∈ s.trades.map
      (fun e => if e.id = t.id then { e with status := TStatus.completed } else e) :=
    completeStep_trades s t ▸ h
  obtain ⟨e, he, heq⟩ := List.mem_map.mp hmem
  by_cases hid : e.id = t.id
  · rw [if_pos hid] at heq
    rw [← heq] at hp
    exact absurd hp (by simp)
  · rw [if_neg hid] at heq
    rw [← heq]
    exact he

theorem pending_mem_of_completeFold (l : List Trade) :
    ∀ (s : St) (t' : Trade), t' ∈ (l.foldl completeStep s).trades →
      t'.status = .pending → t' ∈ s.trades := by
  induction l with
  | nil => exact fun s t' h _ => h
  | cons t rest ih =>
    intro s t' h hp
    exact pending_mem_of_completeStep s t t' (ih (completeStep s t) t' h hp) hp

theorem completeStep_marks (s : St) (t : Trade) (t' : Trade)
    (h : t' ∈ (completeStep s t).trades) (hid : t'.id = t.id) :
    t'.status = .completed := by
  have hmem : t' ∈ s.trades.map
      (fun e => if e.id = t.id then { e with status := TStatus.completed } else e) :=
    completeStep_trades s t ▸ h
  obtain ⟨e, he, heq⟩ := List.mem_map.mp hmem
  by_cases hide : e.id = t.id
  · rw [if_pos hide] at heq
    rw [← heq]
  · rw [if_neg hide] at heq
    rw [← heq] at hid
    exact absurd hid hide

theorem completeStep_keeps_marked (s : St) (t : Trade) (i : Nat)
    (h : ∀ t' ∈ s.trades, t'.id = i → t'.status = .completed) :
    ∀ t' ∈ (completeStep s t).trades, t'.id = i → t'.status = .completed := by
  intro t' ht' hid
  have hmem : t' ∈ s.trades.map
      (fun e => if e.id = t.id then { e with status := TStatus.completed } else e) :=
    completeStep_trades s t ▸ ht'
  obtain ⟨e, he, heq⟩ := List.mem_map.mp hmem
  by_cases hide : e.id = t.id
  · rw [if_pos hide] at heq
    rw [← heq]
  · rw [if_neg hide] at heq
    rw [← heq]
    exact h e he (by rw [← heq] at hid; exact hid)

theorem completeFold_keeps_marked (l : List Trade) :
    ∀ (s : St) (i : Nat),
      (∀ t' ∈ s.trades, t'.id = i → t'.status = .completed) →
      ∀ t' ∈ (l.foldl completeStep s).trades, t'.id = i →
        t'.status = .completed := by
  induction l with
  | nil => exact fun s i h => h
  | cons t rest ih =>
    intro s i h
    exact ih (completeStep s t) i (completeStep_keeps_marked s t i h)

theorem completeFold_marks (l : List Trade) :
    ∀ (s : St) (t0 : Trade), t0 ∈ l →
      ∀ t' ∈ (l.foldl completeStep s).trades, t'.id = t0.id →
        t'.status = .completed := by
  induction l with
  | nil => intro s t0 h; exact absurd h (List.not_mem_nil t0)
  | cons t rest ih =>
    intro s t0 h0
    rcases List.mem_cons.mp h0 with he | hrest
    · subst he
      exact completeFold_keeps_marked rest (completeStep s t0) t0.id
        (fun t' ht' hid => completeStep_marks s t0 t' ht' hid)
    · exact ih (completeStep s t) t0 hrest

theorem complete_idem (now : Int) (s : St) :
    complete_pending_trades now (complete_pending_trades now s) =
      complete_pending_trades now s := by
  have hempty : (complete_pending_trades now s).trades.filter
      (fun t => t.status == .pending && t.createdAt ≤ now - 35) = [] := by
    rw [List.filter_eq_nil]
    intro t' ht' hpred
    have hpend : t'.status = .pending := by
      have := (Bool.and_eq_true _ _).mp hpred
      simpa using this.1
    have hdue : t'.createdAt ≤ now - 35 := by
      have := (Bool.and_eq_true _ _).mp hpred
      simpa using this.2
    have hmem : t' ∈ s.trades :=
      pending_mem_of_completeFold _ s t' ht' hpend
    have hsel : t' ∈ s.trades.filter
        (fun t => t.status == .pending && t.createdAt ≤ now - 35) :=
      List.mem_filter.mpr ⟨hmem, by simp [hpend, hdue]⟩
    have := completeFold_marks _ s t' hsel t' ht' rfl
    rw [hpend] at this
    exact absurd this (by simp)
  show ((complete_pending_trades now s).trades.filter _).foldl completeStep _ =
    complete_pending_trades now s
  rw [hempty]
  rfl

theorem completeStep_profiles_none (s : St) (t : Trade)
    (h : lookupProfile s t.userId = none) :
    (completeStep s t).profiles = s.profiles := by
  unfold completeStep
  rw [h]

theorem completeStep_profiles_some (s : St) (t : Trade) (pt : Profile)
    (h : lookupProfile s t.userId = some pt) :
    (completeStep s t).profiles = saveProfile s.profiles t.userId
      { pt with withdrawable_balance := pt.withdrawable_balance + t.profit } := by
  unfold completeStep
  rw [h]

theorem completeFold_credit (l : List Trade) :
    ∀ (s : St) (u : Nat) (p : Profile), lookupProfile s u = some p →
      ∃ q, lookupProfile (l.foldl completeStep s) u = some q ∧
        q.withdrawable_balance = p.withdrawable_balance +
          ((l.filter (fun t => t.userId == u)).map Trade.profit).sum ∧
        q.locked_balance = p.locked_balance ∧ q.rank = p.rank := by
  induction l with
  | nil =>
    intro s u p hl
    exact ⟨p, hl, by simp, rfl, rfl⟩
  | cons t rest ih =>
    intro s u p hl
    by_cases hu : t.userId = u
    · have hl1 : lookupProfile (completeStep s t) u =
          some { p with withdrawable_balance := p.withdrawable_balance + t.profit } := by
        show pLook (completeStep s t).profiles u = _
        rw [completeStep_profiles_some s t p (hu ▸ hl), hu, pLook_save_self,
          show pLook s.profiles u = some p from hl]
        rfl
      obtain ⟨q, hq, hw, hlk, hrk⟩ := ih (completeStep s t) u _ hl1
      refine ⟨q, hq, ?_, hlk, hrk⟩
      rw [hw]
      rw [List.filter_cons_of_pos (by simp [hu]), List.map_cons, List.sum_cons]
      ring
    · have hl1 : lookupProfile (completeStep s t) u = some p := by
        show pLook (completeStep s t).profiles u = _
        cases hto : lookupProfile s t.userId with
        | none => rw [completeStep_profiles_none s t hto]; exact hl
        | some pt =>
          rw [completeStep_profiles_some s t pt hto,
            pLook_save_ne _ _ _ _ (fun h => hu h.symm)]
          exact hl
      obtain ⟨q, hq, hw, hlk, hrk⟩ := ih (completeStep s t) u p hl1
      refine ⟨q, hq, ?_, hlk, hrk⟩
      rw [hw, List.filter_cons_of_neg (by simp [hu])]

/-- C7: while pending, the recomputed tick profit is never negative and
is pinned at exactly 0 below 10 seconds of age; the profit tick leaves
completed trades untouched (their profit is frozen); the completion
pass is idempotent — running it again at the same instant changes
nothing, so a completed trade is never re-credited; and one completion
pass credits each owner's withdrawable balance with exactly the sum of
the frozen profits of that owner's due pending trades, exactly once. -/
theorem C7_trade_profit_and_completion :
    (∀ (ranks : List Rank) (p : Profile) (sec : Int) (r1 r2 r3 : ℚ), 0 ≤ r3 →
      0 ≤ tickProfit ranks p sec r1 r2 r3 ∧
      (sec < 10 → tickProfit ranks p sec r1 r2 r3 = 0)) ∧
    (∀ (ranks : List Rank) (now : Int) (draws : Nat → ℚ × ℚ × ℚ) (s : St)
      (t : Trade), t ∈ s.trades → t.status = .completed →
      t ∈ (update_pending_trades_profit ranks now draws s).trades) ∧
    (∀ (now : Int) (s : St),
      complete_pending_trades now (complete_pending_trades now s) =
        complete_pending_trades now s) ∧
    (∀ (now : Int) (s : St) (u : Nat) (p : Profile), lookupProfile s u = some p →
      ∃ q, lookupProfile (complete_pending_trades now s) u = some q ∧
        q.withdrawable_balance = p.withdrawable_balance +
          (((s.trades.filter
              (fun t => t.status == .pending && t.createdAt ≤ now - 35)).filter
            (fun t => t.userId == u)).map Trade.profit).sum ∧
        q.locked_balance = p.locked_balance ∧ q.rank = p.rank) := by
  refine ⟨fun ranks p sec r1 r2 r3 hr3 =>
      ⟨tickProfit_nonneg ranks p sec r1 r2 r3 hr3, fun hs => ?_⟩,
    fun ranks now draws s t ht hc => ?_, complete_idem,
    fun now s u p hl => completeFold_credit _ s u p hl⟩
  · unfold tickProfit
    rw [if_pos hs]
  · exact List.mem_map.mpr ⟨t, ht, by simp [hc]⟩

/-- Witness for C7: the tick profit of the spec §8 scenario draw is
non-negative, and a completion pass over the fixture state credits
account 1 with exactly the frozen profit of its due pending trade. -/
theorem C7_trade_witness :
    0 ≤ tickProfit rs2 p8 35 (9 / 10) 0 (9 / 10) ∧
    (∃ q, lookupProfile (complete_pending_trades 100 stFix) 1 = some q ∧
      q.withdrawable_balance = (mkProfile 40 10 (some bandA)).withdrawable_balance +
        (((stFix.trades.filter
            (fun t => t.status == .pending && t.createdAt ≤ 100 - 35)).filter
          (fun t => t.userId == 1)).map Trade.profit).sum ∧
      q.locked_balance = (mkProfile 40 10 (some bandA)).locked_balance ∧
      q.rank = (mkProfile 40 10 (some bandA)).rank) :=
  ⟨(C7_trade_profit_and_completion.1 rs2 p8 35 (9 / 10) 0 (9 / 10) (by norm_num)).1,
   C7_trade_profit_and_completion.2.2.2 100 stFix 1 (mkProfile 40 10 (some bandA))
     (by norm_num [lookupProfile, pLook, stFix, stEmpty, mkProfile,
       List.find?_cons_of_pos, List.find?_cons_of_neg, List.find?_nil])⟩

/-! ## C8: the spec §8 trade scenario and its variance bounds -/

theorem profit_per_trade_p8 : profit_per_trade rs2 p8 = 4 := by
  norm_num [profit_per_trade, potential_daily_profit, get_rank,
    insertionSort_rs2, p8, mkProfile, Profile.principal_balance, findRank,
    bandA, bandB]

theorem potential_daily_profit_p8 : potential_daily_profit rs2 p8 = 20 := by
  norm_num [potential_daily_profit, get_rank, insertionSort_rs2, p8,
    mkProfile, Profile.principal_balance, findRank, bandA, bandB]

/-- C8 (amended): with the spec §8 two-band table and `locked = 200`,
the daily target is `20` and the per-trade target is `4`; but the
pseudo-random variance the code adds is `(0.5 + rand) × 5%` of the
per-trade target — between 2.5% and 7.5% of it, NOT at most ±5% — so
for every draw the profit computed at or past the 30-second progress
cap lies strictly between `3.7 × 0.95 = 3.515` and `4.3 × 1.10 = 4.73`
around the target `4`. -/
theorem C8_trade_scenario_bounds :
    potential_daily_profit rs2 p8 = 20 ∧
    profit_per_trade rs2 p8 = 4 ∧
    ∀ (sec : Int) (r1 r2 r3 : ℚ), 30 ≤ sec →
      0 ≤ r1 → r1 < 1 → 0 ≤ r3 → r3 < 1 →
      (3515 / 1000 : ℚ) < tickProfit rs2 p8 sec r1 r2 r3 ∧
      tickProfit rs2 p8 sec r1 r2 r3 < 473 / 100 := by
  refine ⟨potential_daily_profit_p8, profit_per_trade_p8, ?_⟩
  intro sec r1 r2 r3 hsec hr10 hr11 hr30 hr31
  unfold tickProfit
  rw [if_neg (by omega)]
  dsimp only
  have hprog : min ((sec : ℚ) / 30) 1 = 1 := by
    refine min_eq_right ?_
    rw [le_div_iff (by norm_num)]
    have hc : (30 : ℚ) ≤ (sec : ℚ) := by exact_mod_cast hsec
    linarith
  rw [hprog, profit_per_trade_p8]
  have hfl1 : (95 / 100 : ℚ) ≤ 95 / 100 + 15 / 100 * r3 := by linarith
  have hfl2 : (95 / 100 : ℚ) + 15 / 100 * r3 < 110 / 100 := by linarith
  have hva1 : (1 / 10 : ℚ) ≤ (1 / 2 + r1) * (4 * (5 / 100)) := by nlinarith
  have hva2 : ((1 / 2 + r1) * (4 * (5 / 100)) : ℚ) < 3 / 10 := by nlinarith
  by_cases hr2 : r2 < 3 / 5
  · rw [if_pos hr2, max_eq_left (by nlinarith)]
    constructor
    · nlinarith
    · nlinarith
  · rw [if_neg hr2, max_eq_left (by nlinarith)]
    constructor
    · nlinarith
    · nlinarith

/-- C8 counterexample: the draw `r1 = 0.9, r2 = 0, r3 = 0.9` gives a
variance of `(0.5 + 0.9) × 5% = 7%` of the per-trade target — the
profit `4.6438` exceeds the claim's maximal value
`(4 + 4×5%) × 1 × 1.10 = 4.62`, so the variance is NOT bounded by
±5% of the per-trade target. -/
theorem C8_counterexample_variance_bound :
    tickProfit rs2 p8 35 (9 / 10) 0 (9 / 10) = 23219 / 5000 ∧
    ¬ tickProfit rs2 p8 35 (9 / 10) 0 (9 / 10) ≤
      (4 + 4 * (5 / 100)) * 1 * (110 / 100) := by
  have h : tickProfit rs2 p8 35 (9 / 10) 0 (9 / 10) = 23219 / 5000 := by
    norm_num [tickProfit, profit_per_trade, potential_daily_profit, get_rank,
      insertionSort_rs2, p8, mkProfile, Profile.principal_balance, findRank,
      bandA, bandB]
  refine ⟨h, ?_⟩
  rw [h]
  norm_num

/-- Witness for C8: the bounds applied to the concrete draw of the
counterexample instant. -/
theorem C8_trade_scenario_witness :
    (3515 / 1000 : ℚ) < tickProfit rs2 p8 35 (9 / 10) 0 (9 / 10) ∧
    tickProfit rs2 p8 35 (9 / 10) 0 (9 / 10) < 473 / 100 :=
  C8_trade_scenario_bounds.2.2 35 (9 / 10) 0 (9 / 10) (by norm_num)
    (by norm_num) (by norm_num) (by norm_num) (by norm_num)

/-! ## C9: idempotence of the expiry reaper -/

theorem reapStep_eq_of_blocked (ranks : List Rank) (s : St) (d : Deposit)
    (h : blockedDep s d) : reapStep ranks s d = s := by
  unfold reapStep
  cases hl : lookupProfile s d.userId with
  | none => rfl
  | some p =>
    dsimp only
    rw [if_neg (not_le.mpr (h p (by rw [hl]; rfl)))]

theorem reapFold_eq_of_blocked (ranks : List Rank) (l : List Deposit) (s : St)
    (h : ∀ d ∈ l, blockedDep s d) : l.foldl (reapStep ranks) s = s := by
  induction l with
  | nil => rfl
  | cons d rest ih =>
    rw [List.foldl_cons, reapStep_eq_of_blocked ranks s d (h d (by simp))]
    exact ih (fun d' hd' => h d' (List.mem_cons_of_mem d hd'))

theorem reapStep_locked_mono (ranks : List Rank) (s : St) (d : Deposit)
    (hd : 0 ≤ d.amount) :
    ∀ u q', lookupProfile (reapStep ranks s d) u = some q' →
      ∃ q, lookupProfile s u = some q ∧ q'.locked_balance ≤ q.locked_balance := by
  unfold reapStep
  cases hl : lookupProfile s d.userId with
  | none => exact fun u q' hq' => ⟨q', hq', le_refl _⟩
  | some p =>
    dsimp only
    by_cases hge : p.locked_balance ≥ d.amount
    · rw [if_pos hge]
      by_cases hr : ({ p with locked_balance := p.locked_balance - d.amount } : Profile).rank ≠
          get_rank ranks { p with locked_balance := p.locked_balance - d.amount }
      · rw [if_pos hr]
        intro u q' hq'
        by_cases hvu : u = d.userId
        · subst hvu
          refine ⟨p, hl, ?_⟩
          replace hq' : pLook (saveProfile (saveProfile s.profiles d.userId _) d.userId _) d.userId = some q' := hq'
          rw [pLook_save2_self, show pLook s.profiles d.userId = some p from hl] at hq'
          simp only [Option.map_some', Option.some_inj] at hq'
          rw [← hq']
          show p.locked_balance - d.amount ≤ p.locked_balance
          linarith
        · refine ⟨q', ?_, le_refl _⟩
          replace hq' : pLook (saveProfile (saveProfile s.profiles d.userId _) d.userId _) u = some q' := hq'
          rw [pLook_save2_ne _ _ _ _ _ hvu] at hq'
          exact hq'
      · rw [if_neg hr]
        intro u q' hq'
        by_cases hvu : u = d.userId
        · subst hvu
          refine ⟨p, hl, ?_⟩
          replace hq' : pLook (saveProfile s.profiles d.userId _) d.userId = some q' := hq'
          rw [pLook_save_self, show pLook s.profiles d.userId = some p from hl] at hq'
          simp only [Option.map_some', Option.some_inj] at hq'
          rw [← hq']
          show p.locked_balance - d.amount ≤ p.locked_balance
          linarith
        · refine ⟨q', ?_, le_refl _⟩
          replace hq' : pLook (saveProfile s.profiles d.userId _) u = some q' := hq'
          rw [pLook_save_ne _ _ _ _ hvu] at hq'
          exact hq'
    · rw [if_neg hge]
      exact fun u q' hq' => ⟨q', hq', le_refl _⟩

theorem reapStep_blocked_mono (ranks : List Rank) (s : St) (d : Deposit)
    (hd : 0 ≤ d.amount) (d' : Deposit) (h : blockedDep s d') :
    blockedDep (reapStep ranks s d) d' := by
  intro p' hp'
  obtain ⟨q, hq, hle⟩ := reapStep_locked_mono ranks s d hd d'.userId p'
    (Option.mem_def.mp hp')
  exact lt_of_le_of_lt hle (h q (Option.mem_def.mpr hq))

theorem reapStep_eq_of_none (ranks : List Rank) (s : St) (d : Deposit)
    (hl : lookupProfile s d.userId = none) : reapStep ranks s d = s := by
  unfold reapStep
  rw [hl]

theorem reapStep_eq_of_short (ranks : List Rank) (s : St) (d : Deposit)
    (p : Profile) (hl : lookupProfile s d.userId = some p)
    (hge : ¬ p.locked_balance ≥ d.amount) : reapStep ranks s d = s := by
  unfold reapStep
  rw [hl]
  dsimp only
  rw [if_neg hge]

theorem reapStep_deposits_expire (ranks : List Rank) (s : St) (d : Deposit)
    (p : Profile) (hl : lookupProfile s d.userId = some p)
    (hge : p.locked_balance ≥ d.amount) :
    (reapStep ranks s d).deposits = s.deposits.map
      (fun e => if e.id = d.id then { e with status := DStatus.expired } else e) := by
  unfold reapStep
  rw [hl]
  dsimp only
  rw [if_pos hge]
  by_cases hr : ({ p with locked_balance := p.locked_balance - d.amount } : Profile).rank ≠
      get_rank ranks { p with locked_balance := p.locked_balance - d.amount }
  · rw [if_pos hr]
  · rw [if_neg hr]

theorem dueApproved_of_mark (now : Int) (i : Nat) (e d' : Deposit)
    (heq : (if e.id = i then { e with status := DStatus.expired } else e) = d')
    (hdue : dueApproved now d' = true) : d' = e ∧ d'.id ≠ i := by
  by_cases hid : e.id = i
  · rw [if_pos hid] at heq
    rw [← heq] at hdue
    exact absurd hdue (by simp [dueApproved])
  · rw [if_neg hid] at heq
    exact ⟨heq.symm, by rw [← heq]; exact hid⟩

theorem reapFold_blocks (ranks : List Rank) (now : Int) (l : List Deposit) :
    ∀ s : St, (∀ d ∈ l, 0 ≤ d.amount) →
      (∀ d' ∈ s.deposits, dueApproved now d' = true → d' ∈ l ∨ blockedDep s d') →
      ∀ d' ∈ (l.foldl (reapStep ranks) s).deposits, dueApproved now d' = true →
        blockedDep (l.foldl (reapStep ranks) s) d' := by
  induction l with
  | nil =>
    intro s _ hI d' hd' hdue
    rcases hI d' hd' hdue with h | h
    · exact absurd h (List.not_mem_nil d')
    · exact h
  | cons d rest ih =>
    intro s hamt hI
    rw [List.foldl_cons]
    refine ih (reapStep ranks s d)
      (fun x hx => hamt x (List.mem_cons_of_mem d hx)) ?_
    intro d' hd' hdue
    have hd0 : (0 : ℚ) ≤ d.amount := hamt d (by simp)
    cases hl : lookupProfile s d.userId with
    | none =>
      rw [reapStep_eq_of_none ranks s d hl] at hd' ⊢
      rcases hI d' hd' hdue with hmem | hblk
      · rcases List.mem_cons.mp hmem with he | he
        · subst he
          exact Or.inr (fun p hp => absurd hp (by rw [hl]; simp))
        · exact Or.inl he
      · exact Or.inr hblk
    | some p =>
      by_cases hge : p.locked_balance ≥ d.amount
      · rw [show (reapStep ranks s d).deposits = _ from
          reapStep_deposits_expire ranks s d p hl hge] at hd'
        obtain ⟨e, he, heq⟩ := List.mem_map.mp hd'
        obtain ⟨hde, hdid⟩ := dueApproved_of_mark now d.id e d' heq hdue
        subst hde
        rcases hI d' he hdue with hmem | hblk
        · rcases List.mem_cons.mp hmem with hh | hh
          · exact absurd (by rw [hh]) hdid
          · exact Or.inl hh
        · exact Or.inr (reapStep_blocked_mono ranks s d hd0 d' hblk)
      · rw [reapStep_eq_of_short ranks s d p hl hge] at hd' ⊢
        rcases hI d' hd' hdue with hmem | hblk
        · rcases List.mem_cons.mp hmem with he | he
          · subst he
            refine Or.inr (fun p' hp' => ?_)
            have hpp : p' = p := by
              rw [hl] at hp'
              exact (Option.some_inj.mp (Option.mem_def.mp hp')).symm
            rw [hpp]
            exact not_le.mp hge
          · exact Or.inl he
        · exact Or.inr hblk

/-- C9: the expiry reaper is idempotent.  For non-negative deposit
amounts (which the platform guarantees: the deposit form enforces a
positive minimum and promo bonuses are non-negative), running
`process_expired_deposits` twice at the same instant produces exactly
the same state — deposit statuses, balances, ranks and notifications —
as running it once: the first pass expires every coverable due deposit,
and every deposit it skipped stays uncoverable because locked balances
only decrease during a pass. -/
theorem C9_reaper_idempotent :
    ∀ (ranks : List Rank) (now : Int) (s : St),
      (∀ d ∈ s.deposits, 0 ≤ d.amount) →
      process_expired_deposits ranks now (process_expired_deposits ranks now s) =
        process_expired_deposits ranks now s := by
  intro ranks now s hamt
  have hblocks : ∀ d' ∈ (process_expired_deposits ranks now s).deposits,
      dueApproved now d' = true →
      blockedDep (process_expired_deposits ranks now s) d' := by
    unfold process_expired_deposits
    refine reapFold_blocks ranks now _ s ?_ ?_
    · intro d hd
      have hmem : d ∈ s.deposits.filter (dueApproved now) :=
        ((List.perm_insertionSort _ _).mem_iff).mp hd
      exact hamt d (List.mem_of_mem_filter hmem)
    · intro d' hd' hdue
      refine Or.inl (((List.perm_insertionSort _ _).mem_iff).mpr ?_)
      exact List.mem_filter.mpr ⟨hd', hdue⟩
  exact reapFold_eq_of_blocked ranks _ _ (fun d hd => by
    have hf := ((List.perm_insertionSort _ _).mem_iff).mp hd
    exact hblocks d (List.mem_of_mem_filter hf) (List.of_mem_filter hf))

/-- Witness for C9: the reaper applied twice to the fixture state equals
a single application. -/
theorem C9_reaper_idempotent_witness :
    process_expired_deposits rs2 60 (process_expired_deposits rs2 60 stFix) =
      process_expired_deposits rs2 60 stFix :=
  C9_reaper_idempotent rs2 60 stFix
    (by
      intro d hd
      rw [show stFix.deposits = [dep1, dep2] from rfl] at hd
      rcases List.mem_cons.mp hd with h | h
      · rw [h]
        norm_num [dep1]
      · rw [List.mem_singleton.mp h]
        norm_num [dep2])

/-! ## C10: the wallet reservation pool -/

theorem foldl_oldest (rest : List (String × WAssign)) :
    ∀ acc : String × WAssign,
      (rest.foldl (fun best x =>
        if x.2.timestamp < best.2.timestamp then x else best) acc = acc ∨
       rest.foldl (fun best x =>
        if x.2.timestamp < best.2.timestamp then x else best) acc ∈ rest) ∧
      (rest.foldl (fun best x =>
        if x.2.timestamp < best.2.timestamp then x else best) acc).2.timestamp ≤
        acc.2.timestamp ∧
      ∀ x ∈ rest, (rest.foldl (fun best x =>
        if x.2.timestamp < best.2.timestamp then x else best) acc).2.timestamp ≤
        x.2.timestamp := by
  induction rest with
  | nil => exact fun acc => ⟨Or.inl rfl, le_refl _, fun x hx => absurd hx (List.not_mem_nil x)⟩
  | cons y ys ih =>
    intro acc
    rw [List.foldl_cons]
    by_cases hy : y.2.timestamp < acc.2.timestamp
    · rw [if_pos hy]
      obtain ⟨hmem, hle, hall⟩ := ih y
      refine ⟨?_, le_trans hle (le_of_lt hy), ?_⟩
      · rcases hmem with h | h
        · exact Or.inr (by rw [h]; exact List.mem_cons_self y ys)
        · exact Or.inr (List.mem_cons_of_mem y h)
      · intro x hx
        rcases List.mem_cons.mp hx with h | h
        · rw [h]
          exact hle
        · exact hall x h
    · rw [if_neg hy]
      obtain ⟨hmem, hle, hall⟩ := ih acc
      refine ⟨?_, hle, ?_⟩
      · rcases hmem with h | h
        · exact Or.inl h
        · exact Or.inr (List.mem_cons_of_mem y h)
      · intro x hx
        rcases List.mem_cons.mp hx with h | h
        · rw [h]
          exact le_trans hle (not_lt.mp hy)
        · exact hall x h

theorem oldestAssignment_spec (c : WalletCache) (e : String × WAssign)
    (h : oldestAssignment c = some e) :
    e ∈ c ∧ ∀ x ∈ c, e.2.timestamp ≤ x.2.timestamp := by
  cases c with
  | nil => exact absurd h (by simp [oldestAssignment])
  | cons hd rest =>
    unfold oldestAssignment at h
    simp only [Option.some_inj] at h
    obtain ⟨hmem, hle, hall⟩ := foldl_oldest rest hd
    rw [h] at hmem hle hall
    refine ⟨?_, ?_⟩
    · rcases hmem with h' | h'
      · rw [h']
        exact List.mem_cons_self hd rest
      · exact List.mem_cons_of_mem hd h'
    · intro x hx
      rcases List.mem_cons.mp hx with h' | h'
      · rw [h']
        exact hle
      · exact hall x h'

theorem cleanAssignments_active (now : Int) (cache : WalletCache) :
    ∀ e ∈ cleanAssignments now cache, now - e.2.timestamp < 300 := by
  intro e he
  have := List.of_mem_filter he
  simpa using this

theorem cleaned_ne_nil_of_unavailable (now : Int) (cache : WalletCache)
    (user_id : Nat) (w : String)
    (h : walletAvailable (cleanAssignments now cache) user_id w = false) :
    cleanAssignments now cache ≠ [] := by
  intro hnil
  unfold walletAvailable at h
  rw [show cacheGet (cleanAssignments now cache) w = none from by
    rw [hnil]; rfl] at h
  exact absurd h (by simp)

/-- C10: the wallet lease call never reaches the unhandled exception
paths; when some address of the (non-empty) pool is available — free of
an active lease, or leased by the requesting holder — it returns one
such address and records a fresh lease stamped `now` (expiring 300
seconds later under the sweep rule); when none is available it grants
nothing and returns a strictly positive wait equal to the minimum
remaining lease time across all active leases, leaving the swept cache
behind. -/
theorem C10_wallet_lease :
    ∀ (pool : List String) (network : String) (user_id : Nat) (now : Int)
      (choice : Nat) (cache : WalletCache), pool ≠ [] →
    (get_available_wallet pool network user_id now choice cache).1 ≠ .crash ∧
    ((∃ w ∈ pool, walletAvailable (cleanAssignments now cache) user_id w = true) →
      ∃ a, get_available_wallet pool network user_id now choice cache =
          (.addr a, cacheSet (cleanAssignments now cache) a ⟨user_id, network, now⟩) ∧
        a ∈ pool ∧ walletAvailable (cleanAssignments now cache) user_id a = true) ∧
    ((∀ w ∈ pool, walletAvailable (cleanAssignments now cache) user_id w = false) →
      ∃ t, get_available_wallet pool network user_id now choice cache =
          (.wait t, cleanAssignments now cache) ∧ 0 < t ∧
        (∀ e ∈ cleanAssignments now cache, t ≤ 300 - (now - e.2.timestamp)) ∧
        (∃ e ∈ cleanAssignments now cache, t = 300 - (now - e.2.timestamp))) := by
  intro pool network user_id now choice cache hpool
  by_cases hav : pool.filter (walletAvailable (cleanAssignments now cache) user_id) = []
  · -- no available address: the wait branch
    have hallfalse : ∀ w ∈ pool,
        walletAvailable (cleanAssignments now cache) user_id w = false := by
      intro w hw
      by_contra hne
      have : w ∈ pool.filter (walletAvailable (cleanAssignments now cache) user_id) :=
        List.mem_filter.mpr ⟨hw, by
          cases hb : walletAvailable (cleanAssignments now cache) user_id w
          · exact absurd hb hne
          · rfl⟩
      rw [hav] at this
      exact absurd this (List.not_mem_nil w)
    obtain ⟨w0, hw0⟩ := List.exists_mem_of_ne_nil pool hpool
    have hclean : cleanAssignments now cache ≠ [] :=
      cleaned_ne_nil_of_unavailable now cache user_id w0 (hallfalse w0 hw0)
    obtain ⟨e0, he0⟩ : ∃ e, oldestAssignment (cleanAssignments now cache) = some e := by
      cases hc : cleanAssignments now cache with
      | nil => exact absurd hc hclean
      | cons hd rest =>
        refine ⟨rest.foldl (fun best x =>
          if x.2.timestamp < best.2.timestamp then x else best) hd, ?_⟩
        rfl
    obtain ⟨hmem, hmin⟩ := oldestAssignment_spec _ _ he0
    have hpos : 0 < 300 - (now - e0.2.timestamp) := by
      have := cleanAssignments_active now cache e0 hmem
      omega
    have hrun : get_available_wallet pool network user_id now choice cache =
        (.wait (300 - (now - e0.2.timestamp)), cleanAssignments now cache) := by
      unfold get_available_wallet
      rw [dif_pos hav, he0]
      dsimp only
      rw [if_pos hpos]
    refine ⟨by rw [hrun]; simp, fun hex => ?_, fun _ => ?_⟩
    · obtain ⟨w, hw, hwav⟩ := hex
      rw [hallfalse w hw] at hwav
      exact absurd hwav (by simp)
    · refine ⟨300 - (now - e0.2.timestamp), hrun, hpos, ?_, ⟨e0, hmem, rfl⟩⟩
      intro e he
      have := hmin e he
      omega
  · -- at least one available address: the grant branch
    have hrun : ∃ a, get_available_wallet pool network user_id now choice cache =
        (.addr a, cacheSet (cleanAssignments now cache) a ⟨user_id, network, now⟩) ∧
        a ∈ pool.filter (walletAvailable (cleanAssignments now cache) user_id) := by
      refine ⟨(pool.filter (walletAvailable (cleanAssignments now cache) user_id)).get
        ⟨choice % _, Nat.mod_lt _ (by
          cases hh : pool.filter (walletAvailable (cleanAssignments now cache) user_id) with
          | nil => exact absurd hh hav
          | cons a l => simp [hh])⟩, ?_, List.get_mem _ _ _⟩
      unfold get_available_wallet
      rw [dif_neg hav]
    obtain ⟨a, ha, hamem⟩ := hrun
    refine ⟨by rw [ha]; simp, fun _ => ?_, fun hall => ?_⟩
    · exact ⟨a, ha, List.mem_of_mem_filter hamem, List.of_mem_filter hamem⟩
    · have := hall a (List.mem_of_mem_filter hamem)
      have h2 := List.of_mem_filter hamem
      rw [this] at h2
      exact absurd h2 (by simp)

/-- Witness for C10: leasing from a two-address pool with an empty cache
grants an address and records the lease. -/
theorem C10_wallet_witness :
    ∃ a, get_available_wallet ["addr1", "addr2"] "USDT BEP20" 1 0 0 [] =
        (.addr a, cacheSet (cleanAssignments 0 []) a ⟨1, "USDT BEP20", 0⟩) ∧
      a ∈ ["addr1", "addr2"] ∧
      walletAvailable (cleanAssignments 0 []) 1 a = true :=
  (C10_wallet_lease ["addr1", "addr2"] "USDT BEP20" 1 0 0 [] (by simp)).2.1
    ⟨"addr1", by simp, rfl⟩

end CopyBloomFX
